import Mathlib

/-!
# kortex rotation module (`src/rotation.cc`)

A shallow embedding of the rotation conversion toolbox of the kortex library over exact real
arithmetic: `double` is read as `ℝ`, a `double[3]` buffer as `Vec3`, a `double[4]` buffer
(axis-angle or quaternion) as `Vec4`, and a row-major `double[9]` buffer or 3x3 `KMatrix` as
`Mat3`.  Output parameters become return values.  The libm functions `sin`, `cos`, `sqrt`,
`acos`, `fabs` are `Real.sin`, `Real.cos`, `Real.sqrt`, `Real.arccos`, `|·|`; `atan2` is the
argument of the complex number `x + i y`.

The constants `RADIANS` and `DEGREES` of `kortex/defs.h` are read as pi/180 and 180/pi.  Only
the spherical round trip over the closed azimuth range [-180, 180] depends on how a
double-precision `RADIANS` compares with pi/180; there the two constants are parameters
(`azel_to_cartesian_with`, `cartesian_to_azel_with`).
-/

namespace kortex

noncomputable section

/-! ## Data model -/

/-- A buffer `double[3]`; field `xi` is entry `[i]`. -/
@[ext] structure Vec3 where
  x0 : ℝ
  x1 : ℝ
  x2 : ℝ

/-- A buffer `double[4]`: an axis-angle (axis in `[0..2]`, angle in radians in `[3]`) or a
quaternion in (x, y, z, w) order; field `xi` is entry `[i]`. -/
@[ext] structure Vec4 where
  x0 : ℝ
  x1 : ℝ
  x2 : ℝ
  x3 : ℝ

/-- A row-major buffer `double[9]` or 3x3 `KMatrix`; field `ri` is entry `[i]`, so the matrix
element `R(i,j)` is field `r(3*i+j)`. -/
@[ext] structure Mat3 where
  r0 : ℝ
  r1 : ℝ
  r2 : ℝ
  r3 : ℝ
  r4 : ℝ
  r5 : ℝ
  r6 : ℝ
  r7 : ℝ
  r8 : ℝ

/-! ## Collaborators declared in `kortex/math.h`, `kortex/defs.h`, `kortex/kmatrix.h` -/

/-- Modelled from the spec: the constant `RADIANS` of `kortex/defs.h` converting degrees to
radians, pi/180. -/
def RADIANS : ℝ := Real.pi / 180

/-- Modelled from the spec: the constant `DEGREES` of `kortex/defs.h` converting radians to
degrees, 180/pi. -/
def DEGREES : ℝ := 180 / Real.pi

/-- Modelled from the spec: the helper `sq` of `kortex/math.h`, the square of its argument. -/
def sq (x : ℝ) : ℝ := x * x

/-- Modelled from the spec: the vector primitive `dot3` of `kortex/math.h`, the dot product of
two 3-vectors. -/
def dot3 (a b : Vec3) : ℝ := a.x0 * b.x0 + a.x1 * b.x1 + a.x2 * b.x2

/-- Modelled from the spec: the vector primitive `cross3` of `kortex/math.h`, the cross product
of two 3-vectors. -/
def cross3 (a b : Vec3) : Vec3 :=
  ⟨a.x1 * b.x2 - a.x2 * b.x1, a.x2 * b.x0 - a.x0 * b.x2, a.x0 * b.x1 - a.x1 * b.x0⟩

/-- Modelled from the spec: the vector primitive `normalize_l2norm3` of `kortex/math.h`, the L2
normalisation of a 3-vector (each entry divided by the Euclidean norm). -/
def normalize_l2norm3 (a : Vec3) : Vec3 :=
  let nrm := Real.sqrt (sq a.x0 + sq a.x1 + sq a.x2)
  ⟨a.x0 / nrm, a.x1 / nrm, a.x2 / nrm⟩

/-- Modelled from the spec: the vector primitive `cross3_normalized` of `kortex/math.h`, the
normalised cross product `normalize(cross(a, b))`. -/
def cross3_normalized (a b : Vec3) : Vec3 := normalize_l2norm3 (cross3 a b)

/-- Modelled from the spec: the product of two 3x3 matrices on row-major storage. -/
def mat_mat (A B : Mat3) : Mat3 :=
  ⟨A.r0 * B.r0 + A.r1 * B.r3 + A.r2 * B.r6,
   A.r0 * B.r1 + A.r1 * B.r4 + A.r2 * B.r7,
   A.r0 * B.r2 + A.r1 * B.r5 + A.r2 * B.r8,
   A.r3 * B.r0 + A.r4 * B.r3 + A.r5 * B.r6,
   A.r3 * B.r1 + A.r4 * B.r4 + A.r5 * B.r7,
   A.r3 * B.r2 + A.r4 * B.r5 + A.r5 * B.r8,
   A.r6 * B.r0 + A.r7 * B.r3 + A.r8 * B.r6,
   A.r6 * B.r1 + A.r7 * B.r4 + A.r8 * B.r7,
   A.r6 * B.r2 + A.r7 * B.r5 + A.r8 * B.r8⟩

/-- Modelled from the spec: the three-matrix product helper `mat_mat_mat` of
`kortex/kmatrix.h`, the matrix product A·B·C. -/
def mat_mat_mat (A B C : Mat3) : Mat3 := mat_mat (mat_mat A B) C

/-- The libm function `atan2(y, x)`: the angle in (-pi, pi] of the point (x, y), and 0 at the
origin. -/
def atan2 (y x : ℝ) : ℝ := Complex.arg ⟨x, y⟩

/-! ## The functions of `rotation.cc` -/

/-- The function `axisangle_to_quaternion( const double* aa, double* q )`, rotation.cc lines
46-53. -/
def axisangle_to_quaternion (aa : Vec4) : Vec4 :=
  let t := aa.x3 / 2
  let s := Real.sin t
  ⟨aa.x0 * s, aa.x1 * s, aa.x2 * s, Real.cos t⟩

/-- The function `quaternion_to_rotation( const double* q, double* R )`, rotation.cc lines
55-76. -/
def quaternion_to_rotation (q : Vec4) : Mat3 :=
  let q1_2 := sq q.x0
  let q2_2 := sq q.x1
  let q3_2 := sq q.x2
  let q12 := q.x0 * q.x1
  let q13 := q.x0 * q.x2
  let q14 := q.x0 * q.x3
  let q23 := q.x1 * q.x2
  let q24 := q.x1 * q.x3
  let q34 := q.x2 * q.x3
  ⟨1 - 2 * (q2_2 + q3_2), 2 * (q12 - q34), 2 * (q13 + q24),
   2 * (q12 + q34), 1 - 2 * (q1_2 + q3_2), 2 * (q23 - q14),
   2 * (q13 - q24), 2 * (q23 + q14), 1 - 2 * (q1_2 + q2_2)⟩

/-- The function `axisangle_to_rotation( const double* aa, double* R )`, rotation.cc lines
78-82. -/
def axisangle_to_rotation (aa : Vec4) : Mat3 :=
  quaternion_to_rotation (axisangle_to_quaternion aa)

/-- The function `rotate_normal_to_normal( const double* na, const double* nb, double* Rab )`,
rotation.cc lines 23-44. -/
def rotate_normal_to_normal (na nb : Vec3) : Mat3 :=
  let Na := normalize_l2norm3 na
  let Nb := normalize_l2norm3 nb
  let dot_ab := dot3 Na Nb
  let axis : Vec4 :=
    if 1 - dot_ab < 1e-10 then
      ⟨0.0, 0.0, 1.0, 0.0⟩
    else
      let c := normalize_l2norm3 (cross3 Na Nb)
      ⟨c.x0, c.x1, c.x2, Real.arccos dot_ab⟩
  axisangle_to_rotation axis

/-- The function `rotation_matrix_around_z( const double& angle_in_degrees, KMatrix& R )`,
rotation.cc lines 85-92. -/
def rotation_matrix_around_z (angle_in_degrees : ℝ) : Mat3 :=
  let in_plane := angle_in_degrees * RADIANS
  ⟨Real.cos in_plane, -Real.sin in_plane, 0,
   Real.sin in_plane, Real.cos in_plane, 0,
   0, 0, 1⟩

/-- The function `euler_to_rotation( double theta, double phi, double psi, KMatrix& R )`,
rotation.cc lines 95-116. -/
def euler_to_rotation (theta phi psi : ℝ) : Mat3 :=
  let theta := theta * RADIANS
  let phi := phi * RADIANS
  let psi := psi * RADIANS
  let c := Real.cos theta
  let s := Real.sin theta
  let Rx : Mat3 := ⟨1, 0, 0, 0, c, -s, 0, s, c⟩
  let c := Real.cos phi
  let s := Real.sin phi
  let Ry : Mat3 := ⟨c, 0, s, 0, 1, 0, -s, 0, c⟩
  let c := Real.cos psi
  let s := Real.sin psi
  let Rz : Mat3 := ⟨c, -s, 0, s, c, 0, 0, 0, 1⟩
  mat_mat_mat Rx Ry Rz

/-- The function
`rotation_to_euler( const KMatrix& R, double& theta, double& phi, double& psi )`,
rotation.cc lines 125-136; the result is the triple (theta, phi, psi) in degrees.  `R(i,j)` is
field `r(3*i+j)`. -/
def rotation_to_euler (R : Mat3) : ℝ × ℝ × ℝ :=
  let theta := atan2 R.r5 R.r8
  let c2 := Real.sqrt (sq R.r0 + sq R.r1)
  let phi := atan2 (-R.r2) c2
  let s1 := Real.sin theta
  let c1 := Real.cos theta
  let psi := atan2 (s1 * R.r6 - c1 * R.r3) (c1 * R.r4 - s1 * R.r7)
  (theta * -DEGREES, phi * -DEGREES, psi * -DEGREES)

/-- The function `azel_to_cartesian( double az, double el, double n[3] )`, rotation.cc lines
143-149. -/
def azel_to_cartesian (az el : ℝ) : Vec3 :=
  let az := az * RADIANS
  let el := el * RADIANS
  ⟨Real.sin el * Real.cos az, Real.sin el * Real.sin az, Real.cos el⟩

/-- The function `cartesian_to_azel( const double n[3], double& az, double& el )`, rotation.cc
lines 151-158; the result is the pair (az, el) in degrees. -/
def cartesian_to_azel (n : Vec3) : ℝ × ℝ :=
  let r := Real.sqrt (sq n.x0 + sq n.x1 + sq n.x2)
  let n2 := n.x2 / r
  let n2 := if n2 > 1.0 then 1.0 else if n2 < -1.0 then -1.0 else n2
  let el := Real.arccos n2 * DEGREES
  let az := atan2 n.x1 n.x0 * DEGREES
  (az, el)

/-- The function `azel_to_cartesian` of rotation.cc lines 143-149 with the constant `RADIANS`,
whose defining header `kortex/defs.h` is not among the sources, taken as the parameter `rad`. -/
def azel_to_cartesian_with (rad : ℝ) (az el : ℝ) : Vec3 :=
  let az := az * rad
  let el := el * rad
  ⟨Real.sin el * Real.cos az, Real.sin el * Real.sin az, Real.cos el⟩

/-- The function `cartesian_to_azel` of rotation.cc lines 151-158 with the constant `DEGREES`,
whose defining header `kortex/defs.h` is not among the sources, taken as the parameter `deg`;
the result is the pair (az, el). -/
def cartesian_to_azel_with (deg : ℝ) (n : Vec3) : ℝ × ℝ :=
  let r := Real.sqrt (sq n.x0 + sq n.x1 + sq n.x2)
  let n2 := n.x2 / r
  let n2 := if n2 > 1.0 then 1.0 else if n2 < -1.0 then -1.0 else n2
  let el := Real.arccos n2 * deg
  let az := atan2 n.x1 n.x0 * deg
  (az, el)

/-- The constant `canonical_xd`, rotation.cc line 160. -/
def canonical_xd : Vec3 := ⟨1.0, 0.0, 0.0⟩

/-- The constant `canonical_yd`, rotation.cc line 161. -/
def canonical_yd : Vec3 := ⟨0.0, 1.0, 0.0⟩

/-- The constant `canonical_zd`, rotation.cc line 162. -/
def canonical_zd : Vec3 := ⟨0.0, 0.0, 1.0⟩

/-- The function
`construct_local_coordinate_frame(const double* z_normal, double* new_u, double* new_v)`,
rotation.cc lines 163-176; the result is the pair (new_u, new_v).  The three buffers are
distinct values here, which is the precondition the source asserts. -/
def construct_local_coordinate_frame (z_normal : Vec3) : Vec3 × Vec3 :=
  if |dot3 z_normal canonical_xd| > 0.8 then
    let new_u := cross3_normalized canonical_yd z_normal
    let new_v := cross3_normalized z_normal new_u
    (new_u, new_v)
  else
    let new_v := cross3_normalized z_normal canonical_xd
    let new_u := cross3_normalized new_v z_normal
    (new_u, new_v)

/-! ## Vocabulary of the properties -/

/-- The matrix-vector product R·v of a row-major 3x3 matrix and a 3-vector. -/
def mat_vec (R : Mat3) (v : Vec3) : Vec3 :=
  ⟨R.r0 * v.x0 + R.r1 * v.x1 + R.r2 * v.x2,
   R.r3 * v.x0 + R.r4 * v.x1 + R.r5 * v.x2,
   R.r6 * v.x0 + R.r7 * v.x1 + R.r8 * v.x2⟩

/-- The transpose of a row-major 3x3 matrix. -/
def transpose (R : Mat3) : Mat3 :=
  ⟨R.r0, R.r3, R.r6, R.r1, R.r4, R.r7, R.r2, R.r5, R.r8⟩

/-- The 3x3 identity matrix. -/
def identity3 : Mat3 := ⟨1, 0, 0, 0, 1, 0, 0, 0, 1⟩

/-- The determinant of a row-major 3x3 matrix. -/
def det3 (R : Mat3) : ℝ :=
  R.r0 * (R.r4 * R.r8 - R.r5 * R.r7) - R.r1 * (R.r3 * R.r8 - R.r5 * R.r6)
    + R.r2 * (R.r3 * R.r7 - R.r4 * R.r6)

/-- The zero vector. -/
def zero3 : Vec3 := ⟨0, 0, 0⟩

/-- The Euclidean norm |a| of a 3-vector. -/
def l2norm3 (a : Vec3) : ℝ := Real.sqrt (sq a.x0 + sq a.x1 + sq a.x2)

/-- The elementary rotation about the X axis by `t` radians, as built in `euler_to_rotation`. -/
def elementary_rx (t : ℝ) : Mat3 := ⟨1, 0, 0, 0, Real.cos t, -Real.sin t, 0, Real.sin t, Real.cos t⟩

/-- The elementary rotation about the Y axis by `t` radians, as built in `euler_to_rotation`. -/
def elementary_ry (t : ℝ) : Mat3 := ⟨Real.cos t, 0, Real.sin t, 0, 1, 0, -Real.sin t, 0, Real.cos t⟩

/-- The elementary rotation about the Z axis by `t` radians, as built in `euler_to_rotation`. -/
def elementary_rz (t : ℝ) : Mat3 := ⟨Real.cos t, -Real.sin t, 0, Real.sin t, Real.cos t, 0, 0, 0, 1⟩

/-- The axis part (entries 0..2) of an axis-angle buffer. -/
def axis_of (aa : Vec4) : Vec3 := ⟨aa.x0, aa.x1, aa.x2⟩

/-- The axis-angle buffer `axis` that `rotate_normal_to_normal` fills (rotation.cc lines 31-41)
and hands to `axisangle_to_rotation`. -/
def rotate_normal_to_normal_axis (na nb : Vec3) : Vec4 :=
  let Na := normalize_l2norm3 na
  let Nb := normalize_l2norm3 nb
  let dot_ab := dot3 Na Nb
  if 1 - dot_ab < 1e-10 then
    ⟨0.0, 0.0, 1.0, 0.0⟩
  else
    let c := normalize_l2norm3 (cross3 Na Nb)
    ⟨c.x0, c.x1, c.x2, Real.arccos dot_ab⟩

/-- The vector k·a. -/
def scale3 (k : ℝ) (a : Vec3) : Vec3 := ⟨k * a.x0, k * a.x1, k * a.x2⟩

/-- The trace of a row-major 3x3 matrix. -/
def trace3 (R : Mat3) : ℝ := R.r0 + R.r4 + R.r8

/-- The entrywise sum of two 3x3 matrices. -/
def mat_add (A B : Mat3) : Mat3 :=
  ⟨A.r0 + B.r0, A.r1 + B.r1, A.r2 + B.r2, A.r3 + B.r3, A.r4 + B.r4, A.r5 + B.r5,
   A.r6 + B.r6, A.r7 + B.r7, A.r8 + B.r8⟩

/-- The 3x3 matrix k·A. -/
def mat_smul (k : ℝ) (A : Mat3) : Mat3 :=
  ⟨k * A.r0, k * A.r1, k * A.r2, k * A.r3, k * A.r4, k * A.r5, k * A.r6, k * A.r7, k * A.r8⟩

/-- The cross-product matrix [a]x, with [a]x·v = a×v. -/
def cross_matrix (a : Vec3) : Mat3 := ⟨0, -a.x2, a.x1, a.x2, 0, -a.x0, -a.x1, a.x0, 0⟩

/-- The outer product a·bᵗ. -/
def outer3 (a b : Vec3) : Mat3 :=
  ⟨a.x0 * b.x0, a.x0 * b.x1, a.x0 * b.x2,
   a.x1 * b.x0, a.x1 * b.x1, a.x1 * b.x2,
   a.x2 * b.x0, a.x2 * b.x1, a.x2 * b.x2⟩

/-- The Rodrigues rotation matrix of axis a and angle t, the axis-angle reference definition
cos(t)·I + sin(t)·[a]x + (1 - cos(t))·a·aᵗ. -/
def rodrigues (a : Vec3) (t : ℝ) : Mat3 :=
  mat_add (mat_add (mat_smul (Real.cos t) identity3) (mat_smul (Real.sin t) (cross_matrix a)))
    (mat_smul (1 - Real.cos t) (outer3 a a))

/-! ## Quaternion / rotation-matrix kernel -/

/-- C2: for every unit quaternion q, the matrix written by `quaternion_to_rotation` is a proper
rotation: its transpose times itself is the identity and its determinant is +1. -/
theorem quaternion_to_rotation_proper (q : Vec4)
    (hq : q.x0 ^ 2 + q.x1 ^ 2 + q.x2 ^ 2 + q.x3 ^ 2 = 1) :
    mat_mat (transpose (quaternion_to_rotation q)) (quaternion_to_rotation q) = identity3
      ∧ det3 (quaternion_to_rotation q) = 1 := by
  obtain ⟨x, y, z, w⟩ := q
  simp only at hq
  constructor
  · ext <;> simp only [mat_mat, transpose, quaternion_to_rotation, identity3, sq]
    · linear_combination (4 * (y ^ 2 + z ^ 2)) * hq
    · linear_combination (-4 * x * y) * hq
    · linear_combination (-4 * x * z) * hq
    · linear_combination (-4 * x * y) * hq
    · linear_combination (4 * (x ^ 2 + z ^ 2)) * hq
    · linear_combination (-4 * y * z) * hq
    · linear_combination (-4 * x * z) * hq
    · linear_combination (-4 * y * z) * hq
    · linear_combination (4 * (x ^ 2 + y ^ 2)) * hq
  · simp only [det3, quaternion_to_rotation, sq]
    linear_combination
      (-((1 - (x ^ 2 + y ^ 2 + z ^ 2 + w ^ 2)) ^ 2
          + (1 - (x ^ 2 + y ^ 2 + z ^ 2 + w ^ 2)) * (3 * w ^ 2 - x ^ 2 - y ^ 2 - z ^ 2)
          + (x ^ 2 + y ^ 2 + z ^ 2 + w ^ 2) * (3 * w ^ 2 - x ^ 2 - y ^ 2 - z ^ 2)
          - (x ^ 2 + y ^ 2 + z ^ 2 + w ^ 2) ^ 2 - (x ^ 2 + y ^ 2 + z ^ 2 + w ^ 2) - 1)) * hq

/-- The unit quaternion (0, 0, 0, 1) satisfies the hypothesis of C2 and is sent to a proper
rotation. -/
theorem quaternion_to_rotation_proper_witness :
    ((⟨0, 0, 0, 1⟩ : Vec4).x0 ^ 2 + (⟨0, 0, 0, 1⟩ : Vec4).x1 ^ 2 + (⟨0, 0, 0, 1⟩ : Vec4).x2 ^ 2
        + (⟨0, 0, 0, 1⟩ : Vec4).x3 ^ 2 = 1)
      ∧ (mat_mat (transpose (quaternion_to_rotation ⟨0, 0, 0, 1⟩))
            (quaternion_to_rotation ⟨0, 0, 0, 1⟩) = identity3
          ∧ det3 (quaternion_to_rotation ⟨0, 0, 0, 1⟩) = 1) :=
  ⟨by norm_num, quaternion_to_rotation_proper ⟨0, 0, 0, 1⟩ (by norm_num)⟩

/-- C6: for every unit axis a and every angle t, the matrix written by
`axisangle_to_rotation` for (a, t) maps a to itself. -/
theorem axisangle_to_rotation_fixes_axis (aa : Vec4)
    (_haxis : aa.x0 ^ 2 + aa.x1 ^ 2 + aa.x2 ^ 2 = 1) :
    mat_vec (axisangle_to_rotation aa) (axis_of aa) = axis_of aa := by
  obtain ⟨a0, a1, a2, t⟩ := aa
  ext <;>
    simp only [mat_vec, axisangle_to_rotation, quaternion_to_rotation, axisangle_to_quaternion,
      axis_of, sq] <;> ring

/-- The unit axis (0, 0, 1) with angle 2 satisfies the hypothesis of C6 and is fixed. -/
theorem axisangle_to_rotation_fixes_axis_witness :
    ((⟨0, 0, 1, 2⟩ : Vec4).x0 ^ 2 + (⟨0, 0, 1, 2⟩ : Vec4).x1 ^ 2 + (⟨0, 0, 1, 2⟩ : Vec4).x2 ^ 2 = 1)
      ∧ mat_vec (axisangle_to_rotation ⟨0, 0, 1, 2⟩) (axis_of ⟨0, 0, 1, 2⟩)
          = axis_of ⟨0, 0, 1, 2⟩ :=
  ⟨by norm_num, axisangle_to_rotation_fixes_axis ⟨0, 0, 1, 2⟩ (by norm_num)⟩

/-- C10: for every unit axis a and every angle t, `axisangle_to_quaternion` writes
q = (a·sin(t/2), cos(t/2)), and q has unit norm. -/
theorem axisangle_to_quaternion_unit (aa : Vec4)
    (haxis : aa.x0 ^ 2 + aa.x1 ^ 2 + aa.x2 ^ 2 = 1) :
    axisangle_to_quaternion aa
        = ⟨aa.x0 * Real.sin (aa.x3 / 2), aa.x1 * Real.sin (aa.x3 / 2),
            aa.x2 * Real.sin (aa.x3 / 2), Real.cos (aa.x3 / 2)⟩
      ∧ (axisangle_to_quaternion aa).x0 ^ 2 + (axisangle_to_quaternion aa).x1 ^ 2
          + (axisangle_to_quaternion aa).x2 ^ 2 + (axisangle_to_quaternion aa).x3 ^ 2 = 1 := by
  refine ⟨rfl, ?_⟩
  simp only [axisangle_to_quaternion]
  have hsc := Real.sin_sq_add_cos_sq (aa.x3 / 2)
  linear_combination (Real.sin (aa.x3 / 2) ^ 2) * haxis + hsc

/-- The unit axis (0, 0, 1) with angle 2 satisfies the hypothesis of C10 and yields a unit
quaternion. -/
theorem axisangle_to_quaternion_unit_witness :
    ((⟨0, 0, 1, 2⟩ : Vec4).x0 ^ 2 + (⟨0, 0, 1, 2⟩ : Vec4).x1 ^ 2 + (⟨0, 0, 1, 2⟩ : Vec4).x2 ^ 2 = 1)
      ∧ (axisangle_to_quaternion ⟨0, 0, 1, 2⟩).x0 ^ 2 + (axisangle_to_quaternion ⟨0, 0, 1, 2⟩).x1 ^ 2
          + (axisangle_to_quaternion ⟨0, 0, 1, 2⟩).x2 ^ 2
          + (axisangle_to_quaternion ⟨0, 0, 1, 2⟩).x3 ^ 2 = 1 :=
  ⟨by norm_num, (axisangle_to_quaternion_unit ⟨0, 0, 1, 2⟩ (by norm_num)).2⟩

/-! ## Planar rotation and Euler construction -/

/-- C9: `rotation_matrix_around_z(a)` has rows (cos t, -sin t, 0), (sin t, cos t, 0), (0, 0, 1)
with t = a·pi/180; it maps (1,0,0) to (cos t, sin t, 0) and fixes (0,0,1); for a = 90 it maps
(1,0,0) to (0,1,0). -/
theorem rotation_matrix_around_z_spec (a : ℝ) :
    rotation_matrix_around_z a
        = ⟨Real.cos (a * Real.pi / 180), -Real.sin (a * Real.pi / 180), 0,
            Real.sin (a * Real.pi / 180), Real.cos (a * Real.pi / 180), 0,
            0, 0, 1⟩
      ∧ mat_vec (rotation_matrix_around_z a) ⟨1, 0, 0⟩
          = ⟨Real.cos (a * Real.pi / 180), Real.sin (a * Real.pi / 180), 0⟩
      ∧ mat_vec (rotation_matrix_around_z a) ⟨0, 0, 1⟩ = ⟨0, 0, 1⟩
      ∧ mat_vec (rotation_matrix_around_z 90) ⟨1, 0, 0⟩ = ⟨0, 1, 0⟩ := by
  have ht : a * RADIANS = a * Real.pi / 180 := by simp only [RADIANS]; ring
  have h90 : (90 : ℝ) * RADIANS = Real.pi / 2 := by simp only [RADIANS]; ring
  refine ⟨?_, ?_, ?_, ?_⟩
  · simp only [rotation_matrix_around_z, ht]
  · simp only [rotation_matrix_around_z, mat_vec, ht]; ext <;> simp
  · simp only [rotation_matrix_around_z, mat_vec]; ext <;> simp
  · simp only [rotation_matrix_around_z, mat_vec, h90]; ext <;> simp

/-- C8: `euler_to_rotation(theta, phi, psi)` is the product Rx(theta)·Ry(phi)·Rz(psi) in that
order (angles converted to radians), its rows are (c2c3, -c2s3, s2),
(c1s3 + s1s2c3, c1c3 - s1s2s3, -s1c2), (s1s3 - c1s2c3, s1c3 + c1s2s3, c1c2), and
`euler_to_rotation(0,0,0)` is the identity. -/
theorem euler_to_rotation_spec (theta phi psi : ℝ) :
    euler_to_rotation theta phi psi
        = mat_mat (mat_mat (elementary_rx (theta * Real.pi / 180))
            (elementary_ry (phi * Real.pi / 180))) (elementary_rz (psi * Real.pi / 180))
      ∧ euler_to_rotation theta phi psi
        = ⟨Real.cos (phi * Real.pi / 180) * Real.cos (psi * Real.pi / 180),
           -(Real.cos (phi * Real.pi / 180) * Real.sin (psi * Real.pi / 180)),
           Real.sin (phi * Real.pi / 180),
           Real.cos (theta * Real.pi / 180) * Real.sin (psi * Real.pi / 180)
             + Real.sin (theta * Real.pi / 180) * Real.sin (phi * Real.pi / 180)
                 * Real.cos (psi * Real.pi / 180),
           Real.cos (theta * Real.pi / 180) * Real.cos (psi * Real.pi / 180)
             - Real.sin (theta * Real.pi / 180) * Real.sin (phi * Real.pi / 180)
                 * Real.sin (psi * Real.pi / 180),
           -(Real.sin (theta * Real.pi / 180) * Real.cos (phi * Real.pi / 180)),
           Real.sin (theta * Real.pi / 180) * Real.sin (psi * Real.pi / 180)
             - Real.cos (theta * Real.pi / 180) * Real.sin (phi * Real.pi / 180)
                 * Real.cos (psi * Real.pi / 180),
           Real.sin (theta * Real.pi / 180) * Real.cos (psi * Real.pi / 180)
             + Real.cos (theta * Real.pi / 180) * Real.sin (phi * Real.pi / 180)
                 * Real.sin (psi * Real.pi / 180),
           Real.cos (theta * Real.pi / 180) * Real.cos (phi * Real.pi / 180)⟩
      ∧ euler_to_rotation 0 0 0 = identity3 := by
  have hr : ∀ x : ℝ, x * RADIANS = x * Real.pi / 180 := fun x => by simp only [RADIANS]; ring
  refine ⟨?_, ?_, ?_⟩
  · simp only [euler_to_rotation, mat_mat_mat, elementary_rx, elementary_ry, elementary_rz, hr]
  · simp only [euler_to_rotation, mat_mat_mat, mat_mat, hr]
    ext <;> simp only [] <;> ring
  · simp only [euler_to_rotation, mat_mat_mat, mat_mat, identity3]
    ext <;> simp

/-! ## Normalisation lemmas -/

theorem sumsq_pos_of_ne_zero (a : Vec3) (h : a ≠ zero3) : 0 < sq a.x0 + sq a.x1 + sq a.x2 := by
  obtain ⟨a0, a1, a2⟩ := a
  simp only [sq]
  by_contra hcon
  have h0 : a0 * a0 + a1 * a1 + a2 * a2 = 0 :=
    le_antisymm (not_lt.mp hcon)
      (by nlinarith [mul_self_nonneg a0, mul_self_nonneg a1, mul_self_nonneg a2])
  have e0 : a0 = 0 := by nlinarith [mul_self_nonneg a0, mul_self_nonneg a1, mul_self_nonneg a2]
  have e1 : a1 = 0 := by nlinarith [mul_self_nonneg a0, mul_self_nonneg a1, mul_self_nonneg a2]
  have e2 : a2 = 0 := by nlinarith [mul_self_nonneg a0, mul_self_nonneg a1, mul_self_nonneg a2]
  exact h (by simp [zero3, e0, e1, e2])

theorem norm_pos_of_ne_zero (a : Vec3) (h : a ≠ zero3) :
    0 < Real.sqrt (sq a.x0 + sq a.x1 + sq a.x2) :=
  Real.sqrt_pos.mpr (sumsq_pos_of_ne_zero a h)

theorem normalize_l2norm3_unit (a : Vec3) (h : a ≠ zero3) :
    dot3 (normalize_l2norm3 a) (normalize_l2norm3 a) = 1 := by
  have hpos := sumsq_pos_of_ne_zero a h
  have hn := norm_pos_of_ne_zero a h
  have hsq := Real.mul_self_sqrt hpos.le
  simp only [sq] at hpos hn hsq
  simp only [dot3, normalize_l2norm3, sq]
  field_simp

theorem normalize_l2norm3_of_unit (a : Vec3) (h : dot3 a a = 1) : normalize_l2norm3 a = a := by
  simp only [dot3] at h
  simp only [normalize_l2norm3, sq, h, Real.sqrt_one, div_one]

/-! ## Normal alignment -/

theorem axisangle_to_rotation_zero_angle :
    axisangle_to_rotation ⟨0.0, 0.0, 1.0, 0.0⟩ = identity3 := by
  simp only [axisangle_to_rotation, axisangle_to_quaternion, quaternion_to_rotation, identity3, sq]
  ext <;> norm_num

/-- C7: for every non-zero vector na, `rotate_normal_to_normal(na, na)` is exactly the identity
matrix; more generally, whenever the normalised inputs satisfy 1 - Na·Nb < 1e-10 the result is
exactly the identity. -/
theorem rotate_normal_to_normal_identity :
    (∀ na : Vec3, na ≠ zero3 → rotate_normal_to_normal na na = identity3)
      ∧ (∀ na nb : Vec3,
          1 - dot3 (normalize_l2norm3 na) (normalize_l2norm3 nb) < 1e-10 →
            rotate_normal_to_normal na nb = identity3) := by
  have hgen : ∀ na nb : Vec3,
      1 - dot3 (normalize_l2norm3 na) (normalize_l2norm3 nb) < 1e-10 →
        rotate_normal_to_normal na nb = identity3 := by
    intro na nb h
    simp only [rotate_normal_to_normal, if_pos h]
    exact axisangle_to_rotation_zero_angle
  refine ⟨?_, hgen⟩
  intro na hna
  apply hgen
  rw [normalize_l2norm3_unit na hna]
  norm_num

/-- C7 at na = (0, 0, 2): the vector is non-zero and is aligned with itself by the identity,
and (0, 0, 2), (0, 0, 3) take the coincident branch. -/
theorem rotate_normal_to_normal_identity_witness :
    ((⟨0, 0, 2⟩ : Vec3) ≠ zero3 ∧ rotate_normal_to_normal ⟨0, 0, 2⟩ ⟨0, 0, 2⟩ = identity3)
      ∧ (1 - dot3 (normalize_l2norm3 ⟨0, 0, 2⟩) (normalize_l2norm3 ⟨0, 0, 3⟩) < 1e-10
          ∧ rotate_normal_to_normal ⟨0, 0, 2⟩ ⟨0, 0, 3⟩ = identity3) := by
  have hne : (⟨0, 0, 2⟩ : Vec3) ≠ zero3 := by
    intro h
    have h2 := congrArg Vec3.x2 h
    norm_num [zero3] at h2
  have h2 : Real.sqrt 4 = 2 := by
    rw [show (4 : ℝ) = 2 * 2 by norm_num]
    exact Real.sqrt_mul_self (by norm_num)
  have h3 : Real.sqrt 9 = 3 := by
    rw [show (9 : ℝ) = 3 * 3 by norm_num]
    exact Real.sqrt_mul_self (by norm_num)
  have hd : 1 - dot3 (normalize_l2norm3 ⟨0, 0, 2⟩) (normalize_l2norm3 ⟨0, 0, 3⟩) < 1e-10 := by
    simp only [dot3, normalize_l2norm3, sq]
    norm_num [h2, h3]
  exact ⟨⟨hne, rotate_normal_to_normal_identity.1 _ hne⟩,
    ⟨hd, rotate_normal_to_normal_identity.2 _ _ hd⟩⟩

/-- The half-angle quaternion route written with the full angle: the entries of
`axisangle_to_rotation` in terms of sin t and cos t (no assumption on the axis). -/
theorem axisangle_to_rotation_full_angle (a0 a1 a2 t : ℝ) :
    axisangle_to_rotation ⟨a0, a1, a2, t⟩
      = ⟨1 - (1 - Real.cos t) * (a1 * a1 + a2 * a2),
         (1 - Real.cos t) * (a0 * a1) - Real.sin t * a2,
         (1 - Real.cos t) * (a0 * a2) + Real.sin t * a1,
         (1 - Real.cos t) * (a0 * a1) + Real.sin t * a2,
         1 - (1 - Real.cos t) * (a0 * a0 + a2 * a2),
         (1 - Real.cos t) * (a1 * a2) - Real.sin t * a0,
         (1 - Real.cos t) * (a0 * a2) - Real.sin t * a1,
         (1 - Real.cos t) * (a1 * a2) + Real.sin t * a0,
         1 - (1 - Real.cos t) * (a0 * a0 + a1 * a1)⟩ := by
  have hs : Real.sin t = 2 * Real.sin (t / 2) * Real.cos (t / 2) := by
    rw [← Real.sin_two_mul]
    congr 1
    ring
  have hc : Real.cos t = 1 - 2 * Real.sin (t / 2) ^ 2 := by
    have h1 : Real.cos t = Real.cos (2 * (t / 2)) := by
      congr 1
      ring
    rw [h1, Real.cos_two_mul]
    have h2 := Real.sin_sq_add_cos_sq (t / 2)
    linear_combination 2 * h2
  rw [hs, hc]
  simp only [axisangle_to_rotation, axisangle_to_quaternion, quaternion_to_rotation, sq]
  ext <;> simp only [] <;> ring

/-- Lagrange identity for unit vectors: |x × y|² = 1 - (x·y)². -/
theorem cross3_dot_self_of_unit (x y : Vec3) (hx : dot3 x x = 1) (hy : dot3 y y = 1) :
    dot3 (cross3 x y) (cross3 x y) = 1 - dot3 x y ^ 2 := by
  obtain ⟨x0, x1, x2⟩ := x
  obtain ⟨y0, y1, y2⟩ := y
  simp only [dot3, cross3] at *
  linear_combination (y0 * y0 + y1 * y1 + y2 * y2) * hx + hy

/-- C1: for all non-zero na, nb whose normalisations Na, Nb satisfy 1 - Na·Nb >= 1e-10 and
Na×Nb != 0, the matrix R written by `rotate_normal_to_normal(na, nb)` satisfies R·Na = Nb. -/
theorem rotate_normal_to_normal_maps (na nb : Vec3) (hna : na ≠ zero3) (hnb : nb ≠ zero3)
    (hdot : (1e-10 : ℝ) ≤ 1 - dot3 (normalize_l2norm3 na) (normalize_l2norm3 nb))
    (hcross : cross3 (normalize_l2norm3 na) (normalize_l2norm3 nb) ≠ zero3) :
    mat_vec (rotate_normal_to_normal na nb) (normalize_l2norm3 na) = normalize_l2norm3 nb := by
  have hx := normalize_l2norm3_unit na hna
  have hy := normalize_l2norm3_unit nb hnb
  have hbranch : ¬ (1 - dot3 (normalize_l2norm3 na) (normalize_l2norm3 nb) < 1e-10) :=
    not_lt.mpr hdot
  simp only [rotate_normal_to_normal, if_neg hbranch]
  clear hbranch hdot
  generalize normalize_l2norm3 na = x at hx hcross ⊢
  generalize normalize_l2norm3 nb = y at hy hcross ⊢
  have hlag := cross3_dot_self_of_unit x y hx hy
  have hm := norm_pos_of_ne_zero _ hcross
  have hmm := Real.mul_self_sqrt (sumsq_pos_of_ne_zero _ hcross).le
  have hd2 : dot3 x y ^ 2 ≤ 1 := by
    have := sumsq_pos_of_ne_zero _ hcross
    simp only [sq] at this
    simp only [dot3] at hlag
    simp only [dot3]
    linarith
  have hdl : -1 ≤ dot3 x y := by nlinarith
  have hdu : dot3 x y ≤ 1 := by nlinarith
  have hcos : Real.cos (Real.arccos (dot3 x y)) = dot3 x y := Real.cos_arccos hdl hdu
  have hsin : Real.sin (Real.arccos (dot3 x y))
      = Real.sqrt (sq (cross3 x y).x0 + sq (cross3 x y).x1 + sq (cross3 x y).x2) := by
    rw [Real.sin_arccos]
    congr 1
    simp only [dot3] at hlag
    simp only [sq, dot3]
    linarith
  simp only [normalize_l2norm3, axisangle_to_rotation_full_angle, hcos, hsin]
  clear hcos hsin hdl hdu hd2 hlag hcross
  generalize Real.sqrt (sq (cross3 x y).x0 + sq (cross3 x y).x1 + sq (cross3 x y).x2) = m
    at hm hmm
  obtain ⟨x0, x1, x2⟩ := x
  obtain ⟨y0, y1, y2⟩ := y
  simp only [dot3, cross3, sq] at hx hy hmm ⊢
  have hm0 : m ≠ 0 := hm.ne.symm
  simp only [mat_vec]
  ext
  · simp only []
    field_simp
    linear_combination (m ^ 2 * y0) * hx
      + ((1 - (x0 * y0 + x1 * y1 + x2 * y2)) * x0) * hmm
  · simp only []
    field_simp
    linear_combination (m ^ 2 * y1) * hx
      + ((1 - (x0 * y0 + x1 * y1 + x2 * y2)) * x1) * hmm
  · simp only []
    field_simp
    linear_combination (m ^ 2 * y2) * hx
      + ((1 - (x0 * y0 + x1 * y1 + x2 * y2)) * x2) * hmm

/-- C1 at na = (0,0,1), nb = (1,0,0): the hypotheses hold and R·(0,0,1) = (1,0,0). -/
theorem rotate_normal_to_normal_maps_witness :
    ((⟨0, 0, 1⟩ : Vec3) ≠ zero3 ∧ (⟨1, 0, 0⟩ : Vec3) ≠ zero3
        ∧ (1e-10 : ℝ) ≤ 1 - dot3 (normalize_l2norm3 ⟨0, 0, 1⟩) (normalize_l2norm3 ⟨1, 0, 0⟩)
        ∧ cross3 (normalize_l2norm3 ⟨0, 0, 1⟩) (normalize_l2norm3 ⟨1, 0, 0⟩) ≠ zero3)
      ∧ mat_vec (rotate_normal_to_normal ⟨0, 0, 1⟩ ⟨1, 0, 0⟩) ⟨0, 0, 1⟩ = ⟨1, 0, 0⟩ := by
  have e1 : normalize_l2norm3 ⟨0, 0, 1⟩ = ⟨0, 0, 1⟩ :=
    normalize_l2norm3_of_unit _ (by norm_num [dot3])
  have e2 : normalize_l2norm3 ⟨1, 0, 0⟩ = ⟨1, 0, 0⟩ :=
    normalize_l2norm3_of_unit _ (by norm_num [dot3])
  have h1 : (⟨0, 0, 1⟩ : Vec3) ≠ zero3 := by
    intro h
    have h2 := congrArg Vec3.x2 h
    norm_num [zero3] at h2
  have h2 : (⟨1, 0, 0⟩ : Vec3) ≠ zero3 := by
    intro h
    have h0 := congrArg Vec3.x0 h
    norm_num [zero3] at h0
  have h3 : (1e-10 : ℝ) ≤ 1 - dot3 (normalize_l2norm3 ⟨0, 0, 1⟩) (normalize_l2norm3 ⟨1, 0, 0⟩) := by
    rw [e1, e2]
    norm_num [dot3]
  have h4 : cross3 (normalize_l2norm3 ⟨0, 0, 1⟩) (normalize_l2norm3 ⟨1, 0, 0⟩) ≠ zero3 := by
    rw [e1, e2]
    intro h
    have h1 := congrArg Vec3.x1 h
    norm_num [zero3, cross3] at h1
  have hmain := rotate_normal_to_normal_maps ⟨0, 0, 1⟩ ⟨1, 0, 0⟩ h1 h2 h3 h4
  rw [e1, e2] at hmain
  exact ⟨⟨h1, h2, h3, h4⟩, hmain⟩

/-! ## Local coordinate frame -/

theorem l2norm3_eq_one_of_dot3 (a : Vec3) (h : dot3 a a = 1) : l2norm3 a = 1 := by
  simp only [dot3] at h
  simp only [l2norm3, sq, h, Real.sqrt_one]

theorem dot3_cross3_normalized_left (a b : Vec3) : dot3 (cross3_normalized a b) a = 0 := by
  simp only [dot3, cross3_normalized, normalize_l2norm3, cross3]
  ring

theorem dot3_cross3_normalized_right (a b : Vec3) : dot3 (cross3_normalized a b) b = 0 := by
  simp only [dot3, cross3_normalized, normalize_l2norm3, cross3]
  ring

theorem dot3_comm (a b : Vec3) : dot3 a b = dot3 b a := by
  simp only [dot3]
  ring

/-- The cross product of two perpendicular unit vectors is already a unit vector, so normalising
it changes nothing. -/
theorem cross3_normalized_of_orthonormal (a b : Vec3) (ha : dot3 a a = 1) (hb : dot3 b b = 1)
    (hab : dot3 a b = 0) :
    cross3_normalized a b = cross3 a b ∧ dot3 (cross3 a b) (cross3 a b) = 1 := by
  have hunit : dot3 (cross3 a b) (cross3 a b) = 1 := by
    rw [cross3_dot_self_of_unit a b ha hb, hab]
    norm_num
  exact ⟨normalize_l2norm3_of_unit _ hunit, hunit⟩

theorem cross3_cross3_left (a b : Vec3) (ha : dot3 a a = 1) (hab : dot3 a b = 0) :
    cross3 (cross3 a b) a = b := by
  obtain ⟨a0, a1, a2⟩ := a
  obtain ⟨b0, b1, b2⟩ := b
  simp only [dot3, cross3] at *
  ext
  · simp only []
    linear_combination b0 * ha - a0 * hab
  · simp only []
    linear_combination b1 * ha - a1 * hab
  · simp only []
    linear_combination b2 * ha - a2 * hab

theorem cross3_cross3_right (a b : Vec3) (ha : dot3 a a = 1) (hab : dot3 a b = 0) :
    cross3 a (cross3 b a) = b := by
  obtain ⟨a0, a1, a2⟩ := a
  obtain ⟨b0, b1, b2⟩ := b
  simp only [dot3, cross3] at *
  ext
  · simp only []
    linear_combination b0 * ha - a0 * hab
  · simp only []
    linear_combination b1 * ha - a1 * hab
  · simp only []
    linear_combination b2 * ha - a2 * hab

theorem cross3_canonical_xd_ne_zero (z : Vec3) (hz : dot3 z z = 1)
    (hb : ¬ |dot3 z canonical_xd| > 0.8) : cross3 z canonical_xd ≠ zero3 := by
  obtain ⟨z0, z1, z2⟩ := z
  intro h
  have h1 := congrArg Vec3.x1 h
  have h2 := congrArg Vec3.x2 h
  simp only [cross3, canonical_xd, zero3, dot3] at h1 h2 hz hb
  norm_num at h1 h2 hb
  subst h1 h2
  have hsq : z0 * z0 = 1 := by linarith
  have habs := abs_le.mp hb
  nlinarith [habs.1, habs.2]

theorem cross3_canonical_yd_ne_zero (z : Vec3)
    (hb : |dot3 z canonical_xd| > 0.8) : cross3 canonical_yd z ≠ zero3 := by
  obtain ⟨z0, z1, z2⟩ := z
  intro h
  have h2 := congrArg Vec3.x2 h
  simp only [cross3, canonical_xd, canonical_yd, zero3, dot3] at h2 hb
  norm_num at h2 hb
  subst h2
  norm_num at hb

/-- C5: for every unit vector z, `construct_local_coordinate_frame(z)` writes u and v with
|u| = |v| = 1, u·v = 0, u·z = 0, v·z = 0 and u×v = z, whichever reference branch is taken. -/
theorem construct_local_coordinate_frame_orthonormal (z : Vec3) (hz : l2norm3 z = 1) :
    l2norm3 (construct_local_coordinate_frame z).1 = 1
      ∧ l2norm3 (construct_local_coordinate_frame z).2 = 1
      ∧ dot3 (construct_local_coordinate_frame z).1 (construct_local_coordinate_frame z).2 = 0
      ∧ dot3 (construct_local_coordinate_frame z).1 z = 0
      ∧ dot3 (construct_local_coordinate_frame z).2 z = 0
      ∧ cross3 (construct_local_coordinate_frame z).1 (construct_local_coordinate_frame z).2
          = z := by
  have hzz : dot3 z z = 1 := by
    have h := hz
    simp only [l2norm3] at h
    have h0 : (0 : ℝ) ≤ sq z.x0 + sq z.x1 + sq z.x2 := by
      simp only [sq]
      nlinarith [mul_self_nonneg z.x0, mul_self_nonneg z.x1, mul_self_nonneg z.x2]
    have h2 := Real.mul_self_sqrt h0
    rw [h] at h2
    simp only [sq] at h2
    simp only [dot3]
    linarith
  by_cases hb : |dot3 z canonical_xd| > 0.8
  · simp only [construct_local_coordinate_frame, if_pos hb]
    have hu : dot3 (cross3_normalized canonical_yd z) (cross3_normalized canonical_yd z) = 1 :=
      normalize_l2norm3_unit _ (cross3_canonical_yd_ne_zero z hb)
    have huz : dot3 (cross3_normalized canonical_yd z) z = 0 :=
      dot3_cross3_normalized_right _ _
    generalize cross3_normalized canonical_yd z = u at hu huz
    have hzu : dot3 z u = 0 := by rw [dot3_comm]; exact huz
    obtain ⟨hv, hvv⟩ := cross3_normalized_of_orthonormal z u hzz hu hzu
    rw [hv]
    refine ⟨l2norm3_eq_one_of_dot3 _ hu, l2norm3_eq_one_of_dot3 _ hvv, ?_, huz, ?_, ?_⟩
    · rw [dot3_comm, ← hv]; exact dot3_cross3_normalized_right _ _
    · rw [← hv]; exact dot3_cross3_normalized_left _ _
    · exact cross3_cross3_right u z hu huz
  · simp only [construct_local_coordinate_frame, if_neg hb]
    have hv : dot3 (cross3_normalized z canonical_xd) (cross3_normalized z canonical_xd) = 1 :=
      normalize_l2norm3_unit _ (cross3_canonical_xd_ne_zero z hzz hb)
    have hvz : dot3 (cross3_normalized z canonical_xd) z = 0 :=
      dot3_cross3_normalized_left _ _
    generalize cross3_normalized z canonical_xd = v at hv hvz
    obtain ⟨hu, huu⟩ := cross3_normalized_of_orthonormal v z hv hzz hvz
    rw [hu]
    refine ⟨l2norm3_eq_one_of_dot3 _ huu, l2norm3_eq_one_of_dot3 _ hv, ?_, ?_, hvz, ?_⟩
    · rw [← hu]; exact dot3_cross3_normalized_left _ _
    · rw [← hu]; exact dot3_cross3_normalized_right _ _
    · exact cross3_cross3_left v z hv hvz

/-- C5 at z = (0,0,1) (reference +X) and z = (1,0,0) (reference +Y): both are unit vectors and
the frame written is right-handed, u×v = z. -/
theorem construct_local_coordinate_frame_orthonormal_witness :
    (l2norm3 ⟨0, 0, 1⟩ = 1
        ∧ cross3 (construct_local_coordinate_frame ⟨0, 0, 1⟩).1
            (construct_local_coordinate_frame ⟨0, 0, 1⟩).2 = ⟨0, 0, 1⟩)
      ∧ (l2norm3 ⟨1, 0, 0⟩ = 1
        ∧ cross3 (construct_local_coordinate_frame ⟨1, 0, 0⟩).1
            (construct_local_coordinate_frame ⟨1, 0, 0⟩).2 = ⟨1, 0, 0⟩) := by
  have hz : l2norm3 ⟨0, 0, 1⟩ = 1 := l2norm3_eq_one_of_dot3 _ (by norm_num [dot3])
  have hx : l2norm3 ⟨1, 0, 0⟩ = 1 := l2norm3_eq_one_of_dot3 _ (by norm_num [dot3])
  exact ⟨⟨hz, (construct_local_coordinate_frame_orthonormal ⟨0, 0, 1⟩ hz).2.2.2.2.2⟩,
    ⟨hx, (construct_local_coordinate_frame_orthonormal ⟨1, 0, 0⟩ hx).2.2.2.2.2⟩⟩

/-! ## Angles: `atan2` and the degree/radian constants -/

/-- The function `atan2` recovers the angle of a point given in polar form with positive radius
and angle in (-pi, pi]. -/
theorem atan2_polar (r t : ℝ) (hr : 0 < r) (ht : t ∈ Set.Ioc (-Real.pi) Real.pi) :
    atan2 (r * Real.sin t) (r * Real.cos t) = t := by
  have hpt : (⟨r * Real.cos t, r * Real.sin t⟩ : ℂ)
      = (r : ℂ) * (Complex.cos t + Complex.sin t * Complex.I) := by
    apply Complex.ext
    · simp [Complex.cos_ofReal_re, Complex.sin_ofReal_im, Complex.cos_ofReal_im,
        Complex.sin_ofReal_re]
    · simp [Complex.cos_ofReal_re, Complex.sin_ofReal_im, Complex.cos_ofReal_im,
        Complex.sin_ofReal_re]
  rw [atan2, hpt]
  exact Complex.arg_mul_cos_add_sin_mul_I hr ht

theorem radians_mul_degrees (x : ℝ) : x * RADIANS * DEGREES = x := by
  simp only [RADIANS, DEGREES]
  field_simp

/-! ## Spherical kernel -/

theorem azel_to_cartesian_sumsq (az el : ℝ) :
    sq (azel_to_cartesian az el).x0 + sq (azel_to_cartesian az el).x1
      + sq (azel_to_cartesian az el).x2 = 1 := by
  simp only [azel_to_cartesian, sq]
  have h1 := Real.sin_sq_add_cos_sq (az * RADIANS)
  have h2 := Real.sin_sq_add_cos_sq (el * RADIANS)
  linear_combination (Real.sin (el * RADIANS) ^ 2) * h1 + h2

/-- The parametrised functions are the functions of the source at the constants of the
embedding. -/
theorem azel_with_constants (az el : ℝ) (n : Vec3) :
    azel_to_cartesian_with RADIANS az el = azel_to_cartesian az el
      ∧ cartesian_to_azel_with DEGREES n = cartesian_to_azel n :=
  ⟨rfl, rfl⟩

/-- With the constants exactly pi/180 and 180/pi the round trip holds for az in (-180, 180]
and el in (0, 180). -/
theorem spherical_round_trip_exact_pi (az el : ℝ) (haz : -180 < az ∧ az ≤ 180)
    (hel : 0 < el ∧ el < 180) :
    cartesian_to_azel (azel_to_cartesian az el) = (az, el) := by
  have hpi := Real.pi_pos
  have hshort : ∀ x : ℝ, x * RADIANS = x * Real.pi / 180 := fun x => by
    simp only [RADIANS]
    ring
  have he0 : 0 < el * RADIANS := by
    rw [hshort]
    have := hel.1
    positivity
  have he1 : el * RADIANS < Real.pi := by
    rw [hshort]
    nlinarith [hel.2]
  have ha0 : -Real.pi < az * RADIANS := by
    rw [hshort]
    nlinarith [haz.1]
  have ha1 : az * RADIANS ≤ Real.pi := by
    rw [hshort]
    nlinarith [haz.2]
  have hsin : 0 < Real.sin (el * RADIANS) := Real.sin_pos_of_pos_of_lt_pi he0 he1
  have hr := azel_to_cartesian_sumsq az el
  have hclamp1 : ¬ (Real.cos (el * RADIANS) > 1.0) := by
    have := Real.cos_le_one (el * RADIANS)
    norm_num
    exact this
  have hclamp2 : ¬ (Real.cos (el * RADIANS) < -1.0) := by
    have := Real.neg_one_le_cos (el * RADIANS)
    norm_num
    exact this
  have haz2 : atan2 (Real.sin (el * RADIANS) * Real.sin (az * RADIANS))
      (Real.sin (el * RADIANS) * Real.cos (az * RADIANS)) = az * RADIANS :=
    atan2_polar _ _ hsin ⟨ha0, ha1⟩
  simp only [cartesian_to_azel, hr, Real.sqrt_one, div_one]
  simp only [azel_to_cartesian, if_neg hclamp1, if_neg hclamp2, haz2,
    Real.arccos_cos he0.le he1.le, radians_mul_degrees]

/-- With the constant exactly pi/180, which no double-precision number equals, az = -180 and
az = 180 are sent to the same vector, (-1, 0, 0) at el = 90, whose azimuth `atan2` reports as
+pi.  This is the case that the hypothesis 180·rad < pi of `spherical_round_trip_closed`
leaves out. -/
theorem azel_ends_coincide_exact_pi :
    azel_to_cartesian (-180) 90 = ⟨-1, 0, 0⟩
      ∧ azel_to_cartesian 180 90 = ⟨-1, 0, 0⟩
      ∧ cartesian_to_azel ⟨-1, 0, 0⟩ = (180, 90) := by
  have hpi : Real.pi ≠ 0 := Real.pi_pos.ne.symm
  have h1 : (-180 : ℝ) * RADIANS = -Real.pi := by simp only [RADIANS]; ring
  have h2 : (90 : ℝ) * RADIANS = Real.pi / 2 := by simp only [RADIANS]; ring
  have h3 : (180 : ℝ) * RADIANS = Real.pi := by simp only [RADIANS]; ring
  refine ⟨?_, ?_, ?_⟩
  · simp only [azel_to_cartesian, h1, h2, Real.cos_neg, Real.sin_neg, Real.sin_pi, Real.cos_pi,
      Real.sin_pi_div_two, Real.cos_pi_div_two]
    norm_num
  · simp only [azel_to_cartesian, h3, h2, Real.sin_pi, Real.cos_pi,
      Real.sin_pi_div_two, Real.cos_pi_div_two]
    norm_num
  · have hpt : (⟨-1, 0⟩ : ℂ) = -1 := by
      apply Complex.ext <;> simp
    have harg : atan2 0 (-1) = Real.pi := by
      rw [atan2, hpt]
      exact Complex.arg_neg_one
    have hr : Real.sqrt (sq (-1) + sq 0 + sq 0) = 1 := by
      simp only [sq]
      norm_num
    have hc1 : ¬ ((0 : ℝ) > 1.0) := by norm_num
    have hc2 : ¬ ((0 : ℝ) < -1.0) := by norm_num
    simp only [cartesian_to_azel, hr, zero_div, if_neg hc1, if_neg hc2, harg, Real.arccos_zero,
      DEGREES]
    ext
    · simp only []
      field_simp
    · simp only []
      field_simp
      ring

/-! ## Euler kernel -/

/-- The entries of `euler_to_rotation`, with the angles in radians as the code computes them. -/
theorem euler_to_rotation_entries (theta phi psi : ℝ) :
    euler_to_rotation theta phi psi
      = ⟨Real.cos (phi * RADIANS) * Real.cos (psi * RADIANS),
         -(Real.cos (phi * RADIANS) * Real.sin (psi * RADIANS)),
         Real.sin (phi * RADIANS),
         Real.cos (theta * RADIANS) * Real.sin (psi * RADIANS)
           + Real.sin (theta * RADIANS) * Real.sin (phi * RADIANS) * Real.cos (psi * RADIANS),
         Real.cos (theta * RADIANS) * Real.cos (psi * RADIANS)
           - Real.sin (theta * RADIANS) * Real.sin (phi * RADIANS) * Real.sin (psi * RADIANS),
         -(Real.sin (theta * RADIANS) * Real.cos (phi * RADIANS)),
         Real.sin (theta * RADIANS) * Real.sin (psi * RADIANS)
           - Real.cos (theta * RADIANS) * Real.sin (phi * RADIANS) * Real.cos (psi * RADIANS),
         Real.sin (theta * RADIANS) * Real.cos (psi * RADIANS)
           + Real.cos (theta * RADIANS) * Real.sin (phi * RADIANS) * Real.sin (psi * RADIANS),
         Real.cos (theta * RADIANS) * Real.cos (phi * RADIANS)⟩ := by
  simp only [euler_to_rotation, mat_mat_mat, mat_mat]
  ext <;> simp only [] <;> ring

/-- C3: for every theta and psi in (-180, 180) degrees and every phi in (-90, 90) degrees,
`rotation_to_euler(euler_to_rotation(theta, phi, psi))` returns exactly (theta, phi, psi). -/
theorem euler_round_trip (theta phi psi : ℝ) (htheta : -180 < theta ∧ theta < 180)
    (hphi : -90 < phi ∧ phi < 90) (hpsi : -180 < psi ∧ psi < 180) :
    rotation_to_euler (euler_to_rotation theta phi psi) = (theta, phi, psi) := by
  have hpi := Real.pi_pos
  have ht1 : -(theta * RADIANS) ∈ Set.Ioc (-Real.pi) Real.pi := by
    simp only [RADIANS, Set.mem_Ioc]
    constructor <;> nlinarith [htheta.1, htheta.2]
  have ht3 : -(psi * RADIANS) ∈ Set.Ioc (-Real.pi) Real.pi := by
    simp only [RADIANS, Set.mem_Ioc]
    constructor <;> nlinarith [hpsi.1, hpsi.2]
  have ht2l : -(Real.pi / 2) < phi * RADIANS := by
    simp only [RADIANS]
    nlinarith [hphi.1]
  have ht2u : phi * RADIANS < Real.pi / 2 := by
    simp only [RADIANS]
    nlinarith [hphi.2]
  have ht2 : -(phi * RADIANS) ∈ Set.Ioc (-Real.pi) Real.pi := by
    simp only [Set.mem_Ioc]
    constructor <;> linarith
  have hc2 : 0 < Real.cos (phi * RADIANS) := Real.cos_pos_of_mem_Ioo ⟨ht2l, ht2u⟩
  have hsc1 := Real.sin_sq_add_cos_sq (theta * RADIANS)
  have hsc3 := Real.sin_sq_add_cos_sq (psi * RADIANS)
  -- theta = atan2( R(1,2), R(2,2) )
  have e1 : atan2 (-(Real.sin (theta * RADIANS) * Real.cos (phi * RADIANS)))
      (Real.cos (theta * RADIANS) * Real.cos (phi * RADIANS)) = -(theta * RADIANS) := by
    have h := atan2_polar (Real.cos (phi * RADIANS)) (-(theta * RADIANS)) hc2 ht1
    rw [Real.sin_neg, Real.cos_neg] at h
    rw [← h]
    congr 1 <;> ring
  -- c2 = sqrt( sq( R(0,0) ) + sq( R(0,1) ) )
  have e2 : Real.sqrt (sq (Real.cos (phi * RADIANS) * Real.cos (psi * RADIANS))
      + sq (-(Real.cos (phi * RADIANS) * Real.sin (psi * RADIANS))))
      = Real.cos (phi * RADIANS) := by
    have h : sq (Real.cos (phi * RADIANS) * Real.cos (psi * RADIANS))
        + sq (-(Real.cos (phi * RADIANS) * Real.sin (psi * RADIANS)))
        = Real.cos (phi * RADIANS) * Real.cos (phi * RADIANS) := by
      simp only [sq]
      linear_combination (Real.cos (phi * RADIANS) ^ 2) * hsc3
    rw [h]
    exact Real.sqrt_mul_self hc2.le
  -- phi = atan2( -R(0,2), c2 )
  have e3 : atan2 (-Real.sin (phi * RADIANS)) (Real.cos (phi * RADIANS)) = -(phi * RADIANS) := by
    have h := atan2_polar 1 (-(phi * RADIANS)) one_pos ht2
    rw [Real.sin_neg, Real.cos_neg, one_mul, one_mul] at h
    exact h
  -- psi = atan2( s1*R(2,0)-c1*R(1,0) , c1*R(1,1)-s1*R(2,1) )
  have e4 : atan2
      (-Real.sin (theta * RADIANS)
          * (Real.sin (theta * RADIANS) * Real.sin (psi * RADIANS)
              - Real.cos (theta * RADIANS) * Real.sin (phi * RADIANS) * Real.cos (psi * RADIANS))
        - Real.cos (theta * RADIANS)
          * (Real.cos (theta * RADIANS) * Real.sin (psi * RADIANS)
              + Real.sin (theta * RADIANS) * Real.sin (phi * RADIANS) * Real.cos (psi * RADIANS)))
      (Real.cos (theta * RADIANS)
          * (Real.cos (theta * RADIANS) * Real.cos (psi * RADIANS)
              - Real.sin (theta * RADIANS) * Real.sin (phi * RADIANS) * Real.sin (psi * RADIANS))
        - -Real.sin (theta * RADIANS)
          * (Real.sin (theta * RADIANS) * Real.cos (psi * RADIANS)
              + Real.cos (theta * RADIANS) * Real.sin (phi * RADIANS) * Real.sin (psi * RADIANS)))
      = -(psi * RADIANS) := by
    have h := atan2_polar 1 (-(psi * RADIANS)) one_pos ht3
    rw [Real.sin_neg, Real.cos_neg, one_mul, one_mul] at h
    rw [← h]
    congr 1
    · linear_combination (-Real.sin (psi * RADIANS)) * hsc1
    · linear_combination (Real.cos (psi * RADIANS)) * hsc1
  have hdeg : ∀ x : ℝ, -(x * RADIANS) * -DEGREES = x := by
    intro x
    rw [neg_mul_neg]
    exact radians_mul_degrees x
  simp only [rotation_to_euler, euler_to_rotation_entries, e1, e2, e3, Real.sin_neg, Real.cos_neg,
    e4, hdeg]

/-- C3 at (theta, phi, psi) = (30, 45, 60): the hypotheses hold and the triple is recovered. -/
theorem euler_round_trip_witness :
    (((-180 : ℝ) < 30 ∧ (30 : ℝ) < 180) ∧ ((-90 : ℝ) < 45 ∧ (45 : ℝ) < 90)
        ∧ ((-180 : ℝ) < 60 ∧ (60 : ℝ) < 180))
      ∧ rotation_to_euler (euler_to_rotation 30 45 60) = (30, 45, 60) :=
  ⟨by norm_num, euler_round_trip 30 45 60 (by norm_num) (by norm_num) (by norm_num)⟩

/-! ## Rotation matrices: products of proper rotations -/

theorem transpose_mat_mat (A B : Mat3) :
    transpose (mat_mat A B) = mat_mat (transpose B) (transpose A) := by
  simp only [transpose, mat_mat]
  ext <;> simp only [] <;> ring

theorem mat_mat_assoc (A B C : Mat3) : mat_mat (mat_mat A B) C = mat_mat A (mat_mat B C) := by
  simp only [mat_mat]
  ext <;> simp only [] <;> ring

theorem identity3_mat_mat (A : Mat3) : mat_mat identity3 A = A := by
  simp only [mat_mat, identity3]
  ext <;> simp

theorem det3_mat_mat (A B : Mat3) : det3 (mat_mat A B) = det3 A * det3 B := by
  simp only [det3, mat_mat]
  ring

/-- The product of two proper rotations is a proper rotation. -/
theorem proper_mat_mat (A B : Mat3)
    (hA : mat_mat (transpose A) A = identity3 ∧ det3 A = 1)
    (hB : mat_mat (transpose B) B = identity3 ∧ det3 B = 1) :
    mat_mat (transpose (mat_mat A B)) (mat_mat A B) = identity3 ∧ det3 (mat_mat A B) = 1 := by
  constructor
  · rw [transpose_mat_mat, mat_mat_assoc, ← mat_mat_assoc (transpose A) A B, hA.1,
      identity3_mat_mat, hB.1]
  · rw [det3_mat_mat, hA.2, hB.2, one_mul]

theorem elementary_rx_proper (t : ℝ) :
    mat_mat (transpose (elementary_rx t)) (elementary_rx t) = identity3
      ∧ det3 (elementary_rx t) = 1 := by
  have h := Real.sin_sq_add_cos_sq t
  constructor
  · simp only [mat_mat, transpose, elementary_rx, identity3]
    ext <;> simp only [] <;> first | ring1 | linear_combination h
  · simp only [det3, elementary_rx]
    linear_combination h

theorem elementary_ry_proper (t : ℝ) :
    mat_mat (transpose (elementary_ry t)) (elementary_ry t) = identity3
      ∧ det3 (elementary_ry t) = 1 := by
  have h := Real.sin_sq_add_cos_sq t
  constructor
  · simp only [mat_mat, transpose, elementary_ry, identity3]
    ext <;> simp only [] <;> first | ring1 | linear_combination h
  · simp only [det3, elementary_ry]
    linear_combination h

theorem elementary_rz_proper (t : ℝ) :
    mat_mat (transpose (elementary_rz t)) (elementary_rz t) = identity3
      ∧ det3 (elementary_rz t) = 1 := by
  have h := Real.sin_sq_add_cos_sq t
  constructor
  · simp only [mat_mat, transpose, elementary_rz, identity3]
    ext <;> simp only [] <;> first | ring1 | linear_combination h
  · simp only [det3, elementary_rz]
    linear_combination h

theorem euler_to_rotation_product (theta phi psi : ℝ) :
    euler_to_rotation theta phi psi
      = mat_mat (mat_mat (elementary_rx (theta * RADIANS)) (elementary_ry (phi * RADIANS)))
          (elementary_rz (psi * RADIANS)) := by
  simp only [euler_to_rotation, mat_mat_mat, elementary_rx, elementary_ry, elementary_rz]

/-- C11: for all theta, phi, psi (degrees), the matrix R returned by `euler_to_rotation` is a
member of SO(3): Rᵗ·R = I and det(R) = +1. -/
theorem euler_to_rotation_proper (theta phi psi : ℝ) :
    mat_mat (transpose (euler_to_rotation theta phi psi)) (euler_to_rotation theta phi psi)
        = identity3
      ∧ det3 (euler_to_rotation theta phi psi) = 1 := by
  rw [euler_to_rotation_product]
  exact proper_mat_mat _ _
    (proper_mat_mat _ _ (elementary_rx_proper _) (elementary_ry_proper _))
    (elementary_rz_proper _)

/-- C13: for all az, el (degrees), the vector n written by `azel_to_cartesian` is a unit
vector: n0² + n1² + n2² = 1. -/
theorem azel_to_cartesian_unit (az el : ℝ) :
    (azel_to_cartesian az el).x0 ^ 2 + (azel_to_cartesian az el).x1 ^ 2
      + (azel_to_cartesian az el).x2 ^ 2 = 1 := by
  have h := azel_to_cartesian_sumsq az el
  simp only [sq] at h
  linear_combination h

/-- C14: for every unit axis a and angle t (radians), `axisangle_to_rotation` of (a, t) equals
the Rodrigues matrix cos(t)·I + sin(t)·[a]x + (1 - cos(t))·a·aᵗ. -/
theorem axisangle_to_rotation_rodrigues (aa : Vec4)
    (haxis : aa.x0 ^ 2 + aa.x1 ^ 2 + aa.x2 ^ 2 = 1) :
    axisangle_to_rotation aa = rodrigues (axis_of aa) aa.x3 := by
  obtain ⟨a0, a1, a2, t⟩ := aa
  simp only at haxis
  rw [axisangle_to_rotation_full_angle]
  simp only [rodrigues, mat_add, mat_smul, identity3, cross_matrix, outer3, axis_of]
  ext
  · simp only []
    linear_combination (-(1 - Real.cos t)) * haxis
  · simp only []
    ring
  · simp only []
    ring
  · simp only []
    ring
  · simp only []
    linear_combination (-(1 - Real.cos t)) * haxis
  · simp only []
    ring
  · simp only []
    ring
  · simp only []
    ring
  · simp only []
    linear_combination (-(1 - Real.cos t)) * haxis

/-- C14 at the unit axis (0, 0, 1) and angle 2: the hypothesis holds and the half-angle route
agrees with the Rodrigues matrix. -/
theorem axisangle_to_rotation_rodrigues_witness :
    ((⟨0, 0, 1, 2⟩ : Vec4).x0 ^ 2 + (⟨0, 0, 1, 2⟩ : Vec4).x1 ^ 2 + (⟨0, 0, 1, 2⟩ : Vec4).x2 ^ 2 = 1)
      ∧ axisangle_to_rotation ⟨0, 0, 1, 2⟩ = rodrigues (axis_of ⟨0, 0, 1, 2⟩) 2 :=
  ⟨by norm_num, axisangle_to_rotation_rodrigues ⟨0, 0, 1, 2⟩ (by norm_num)⟩

/-! ## Normal alignment: scaling, minimality, antiparallel inputs, swapped arguments -/

theorem rotate_normal_to_normal_eq_axis (na nb : Vec3) :
    rotate_normal_to_normal na nb
      = axisangle_to_rotation (rotate_normal_to_normal_axis na nb) := rfl

theorem sumsq_scale3 (k : ℝ) (a : Vec3) :
    sq (scale3 k a).x0 + sq (scale3 k a).x1 + sq (scale3 k a).x2
      = k * k * (sq a.x0 + sq a.x1 + sq a.x2) := by
  simp only [scale3, sq]
  ring

theorem sumsq_nonneg (a : Vec3) : 0 ≤ sq a.x0 + sq a.x1 + sq a.x2 := by
  simp only [sq]
  nlinarith [mul_self_nonneg a.x0, mul_self_nonneg a.x1, mul_self_nonneg a.x2]

/-- Normalisation ignores a positive scale factor. -/
theorem normalize_l2norm3_scale3 (k : ℝ) (hk : 0 < k) (a : Vec3) :
    normalize_l2norm3 (scale3 k a) = normalize_l2norm3 a := by
  have hs : Real.sqrt (sq (scale3 k a).x0 + sq (scale3 k a).x1 + sq (scale3 k a).x2)
      = k * Real.sqrt (sq a.x0 + sq a.x1 + sq a.x2) := by
    rw [sumsq_scale3, Real.sqrt_mul (mul_self_nonneg k), Real.sqrt_mul_self hk.le]
  simp only [normalize_l2norm3, hs]
  simp only [scale3]
  ext <;> simp only [] <;> exact mul_div_mul_left _ _ hk.ne.symm

/-- Normalisation turns a negative scale factor into a sign change. -/
theorem normalize_l2norm3_scale3_neg (k : ℝ) (hk : 0 < k) (a : Vec3) :
    normalize_l2norm3 (scale3 (-k) a) = scale3 (-1) (normalize_l2norm3 a) := by
  have hs : Real.sqrt (sq (scale3 (-k) a).x0 + sq (scale3 (-k) a).x1 + sq (scale3 (-k) a).x2)
      = k * Real.sqrt (sq a.x0 + sq a.x1 + sq a.x2) := by
    rw [sumsq_scale3, neg_mul_neg, Real.sqrt_mul (mul_self_nonneg k), Real.sqrt_mul_self hk.le]
  simp only [normalize_l2norm3, hs]
  simp only [scale3]
  ext <;> simp only [] <;>
    rw [neg_mul, neg_div, mul_div_mul_left _ _ hk.ne.symm, neg_one_mul]

/-- C12: `rotate_normal_to_normal` is invariant under positive scaling of its arguments: for
all non-zero na, nb and all k > 0, m > 0, the result for (k·na, m·nb) is the result for
(na, nb). -/
theorem rotate_normal_to_normal_scale_invariant (na nb : Vec3) (k m : ℝ)
    (_hna : na ≠ zero3) (_hnb : nb ≠ zero3) (hk : 0 < k) (hm : 0 < m) :
    rotate_normal_to_normal (scale3 k na) (scale3 m nb) = rotate_normal_to_normal na nb := by
  simp only [rotate_normal_to_normal, normalize_l2norm3_scale3 k hk,
    normalize_l2norm3_scale3 m hm]

/-- C12 at na = (0,0,1), nb = (1,0,0), k = 2, m = 3: the hypotheses hold and the scaled
arguments give the same matrix. -/
theorem rotate_normal_to_normal_scale_invariant_witness :
    ((⟨0, 0, 1⟩ : Vec3) ≠ zero3 ∧ (⟨1, 0, 0⟩ : Vec3) ≠ zero3 ∧ (0 : ℝ) < 2 ∧ (0 : ℝ) < 3)
      ∧ rotate_normal_to_normal (scale3 2 ⟨0, 0, 1⟩) (scale3 3 ⟨1, 0, 0⟩)
          = rotate_normal_to_normal ⟨0, 0, 1⟩ ⟨1, 0, 0⟩ := by
  have h1 : (⟨0, 0, 1⟩ : Vec3) ≠ zero3 := by
    intro h
    have h2 := congrArg Vec3.x2 h
    norm_num [zero3] at h2
  have h2 : (⟨1, 0, 0⟩ : Vec3) ≠ zero3 := by
    intro h
    have h0 := congrArg Vec3.x0 h
    norm_num [zero3] at h0
  exact ⟨⟨h1, h2, by norm_num, by norm_num⟩,
    rotate_normal_to_normal_scale_invariant _ _ 2 3 h1 h2 (by norm_num) (by norm_num)⟩

/-- The dot product of two unit vectors lies in [-1, 1]. -/
theorem dot3_unit_bounds (x y : Vec3) (hx : dot3 x x = 1) (hy : dot3 y y = 1) :
    -1 ≤ dot3 x y ∧ dot3 x y ≤ 1 := by
  have hlag := cross3_dot_self_of_unit x y hx hy
  have hnn := sumsq_nonneg (cross3 x y)
  simp only [sq] at hnn
  simp only [dot3] at hlag hnn
  simp only [dot3]
  constructor <;> nlinarith

/-- The trace of `axisangle_to_rotation` for a unit axis is 1 + 2 cos t. -/
theorem trace3_axisangle_to_rotation (a : Vec3) (t : ℝ) (ha : dot3 a a = 1) :
    trace3 (axisangle_to_rotation ⟨a.x0, a.x1, a.x2, t⟩) = 1 + 2 * Real.cos t := by
  simp only [dot3] at ha
  rw [axisangle_to_rotation_full_angle]
  simp only [trace3]
  linear_combination (-2 * (1 - Real.cos t)) * ha

/-- C15: for all non-zero na, nb with 1 - Na·Nb >= 1e-10 and Na×Nb != 0, the matrix R of
`rotate_normal_to_normal` is the axis-angle rotation whose angle is acos(Na·Nb), an angle in
[0, pi]; its trace is 1 + 2·(Na·Nb), so the rotation angle acos((trace R - 1)/2) of R is that
same angle. -/
theorem rotate_normal_to_normal_minimal (na nb : Vec3) (hna : na ≠ zero3) (hnb : nb ≠ zero3)
    (hdot : (1e-10 : ℝ) ≤ 1 - dot3 (normalize_l2norm3 na) (normalize_l2norm3 nb))
    (hcross : cross3 (normalize_l2norm3 na) (normalize_l2norm3 nb) ≠ zero3) :
    trace3 (rotate_normal_to_normal na nb)
        = 1 + 2 * dot3 (normalize_l2norm3 na) (normalize_l2norm3 nb)
      ∧ rotate_normal_to_normal na nb
        = axisangle_to_rotation (rotate_normal_to_normal_axis na nb)
      ∧ (rotate_normal_to_normal_axis na nb).x3
        = Real.arccos (dot3 (normalize_l2norm3 na) (normalize_l2norm3 nb))
      ∧ 0 ≤ (rotate_normal_to_normal_axis na nb).x3
      ∧ (rotate_normal_to_normal_axis na nb).x3 ≤ Real.pi
      ∧ Real.arccos ((trace3 (rotate_normal_to_normal na nb) - 1) / 2)
        = (rotate_normal_to_normal_axis na nb).x3 := by
  have hx := normalize_l2norm3_unit na hna
  have hy := normalize_l2norm3_unit nb hnb
  have hbranch : ¬ (1 - dot3 (normalize_l2norm3 na) (normalize_l2norm3 nb) < 1e-10) :=
    not_lt.mpr hdot
  have hb := dot3_unit_bounds _ _ hx hy
  have haxis := normalize_l2norm3_unit _ hcross
  have hangle : (rotate_normal_to_normal_axis na nb).x3
      = Real.arccos (dot3 (normalize_l2norm3 na) (normalize_l2norm3 nb)) := by
    simp only [rotate_normal_to_normal_axis, if_neg hbranch]
  have htrace : trace3 (rotate_normal_to_normal na nb)
      = 1 + 2 * dot3 (normalize_l2norm3 na) (normalize_l2norm3 nb) := by
    simp only [rotate_normal_to_normal, if_neg hbranch]
    rw [trace3_axisangle_to_rotation _ _ haxis, Real.cos_arccos hb.1 hb.2]
  refine ⟨htrace, rfl, hangle, ?_, ?_, ?_⟩
  · rw [hangle]
    exact Real.arccos_nonneg _
  · rw [hangle]
    exact Real.arccos_le_pi _
  · rw [htrace, hangle]
    congr 1
    ring

/-- C15 at na = (0,0,1), nb = (1,0,0): the hypotheses hold, the trace is 1 + 2·0 = 1 and the
angle handed to the axis-angle kernel is pi/2. -/
theorem rotate_normal_to_normal_minimal_witness :
    ((⟨0, 0, 1⟩ : Vec3) ≠ zero3 ∧ (⟨1, 0, 0⟩ : Vec3) ≠ zero3
        ∧ (1e-10 : ℝ) ≤ 1 - dot3 (normalize_l2norm3 ⟨0, 0, 1⟩) (normalize_l2norm3 ⟨1, 0, 0⟩)
        ∧ cross3 (normalize_l2norm3 ⟨0, 0, 1⟩) (normalize_l2norm3 ⟨1, 0, 0⟩) ≠ zero3)
      ∧ trace3 (rotate_normal_to_normal ⟨0, 0, 1⟩ ⟨1, 0, 0⟩) = 1
      ∧ (rotate_normal_to_normal_axis ⟨0, 0, 1⟩ ⟨1, 0, 0⟩).x3 = Real.pi / 2 := by
  have e1 : normalize_l2norm3 ⟨0, 0, 1⟩ = ⟨0, 0, 1⟩ :=
    normalize_l2norm3_of_unit _ (by norm_num [dot3])
  have e2 : normalize_l2norm3 ⟨1, 0, 0⟩ = ⟨1, 0, 0⟩ :=
    normalize_l2norm3_of_unit _ (by norm_num [dot3])
  have h1 : (⟨0, 0, 1⟩ : Vec3) ≠ zero3 := by
    intro h
    have h2 := congrArg Vec3.x2 h
    norm_num [zero3] at h2
  have h2 : (⟨1, 0, 0⟩ : Vec3) ≠ zero3 := by
    intro h
    have h0 := congrArg Vec3.x0 h
    norm_num [zero3] at h0
  have h3 : (1e-10 : ℝ) ≤ 1 - dot3 (normalize_l2norm3 ⟨0, 0, 1⟩) (normalize_l2norm3 ⟨1, 0, 0⟩) := by
    rw [e1, e2]
    norm_num [dot3]
  have h4 : cross3 (normalize_l2norm3 ⟨0, 0, 1⟩) (normalize_l2norm3 ⟨1, 0, 0⟩) ≠ zero3 := by
    rw [e1, e2]
    intro h
    have h1 := congrArg Vec3.x1 h
    norm_num [zero3, cross3] at h1
  have hd : dot3 (normalize_l2norm3 ⟨0, 0, 1⟩) (normalize_l2norm3 ⟨1, 0, 0⟩) = 0 := by
    rw [e1, e2]
    norm_num [dot3]
  have hmain := rotate_normal_to_normal_minimal ⟨0, 0, 1⟩ ⟨1, 0, 0⟩ h1 h2 h3 h4
  rw [hd] at hmain
  refine ⟨⟨h1, h2, h3, h4⟩, ?_, ?_⟩
  · rw [hmain.1]
    norm_num
  · rw [hmain.2.2.1, Real.arccos_zero]

/-- C16: for every non-zero na and nb = -k·na with k > 0, the coincident branch
(1 - dot < 1e-10) is not taken, the angle handed to the axis-angle kernel is pi, and the cross
product Na×Nb that is normalised to obtain the axis is the zero vector. -/
theorem rotate_normal_to_normal_antiparallel (na : Vec3) (k : ℝ) (hna : na ≠ zero3)
    (hk : 0 < k) :
    ¬ (1 - dot3 (normalize_l2norm3 na) (normalize_l2norm3 (scale3 (-k) na)) < 1e-10)
      ∧ (rotate_normal_to_normal_axis na (scale3 (-k) na)).x3 = Real.pi
      ∧ cross3 (normalize_l2norm3 na) (normalize_l2norm3 (scale3 (-k) na)) = zero3
      ∧ rotate_normal_to_normal na (scale3 (-k) na)
        = axisangle_to_rotation (rotate_normal_to_normal_axis na (scale3 (-k) na)) := by
  have hx := normalize_l2norm3_unit na hna
  have hd : dot3 (normalize_l2norm3 na) (normalize_l2norm3 (scale3 (-k) na)) = -1 := by
    rw [normalize_l2norm3_scale3_neg k hk]
    simp only [dot3] at hx
    simp only [dot3, scale3]
    linear_combination -hx
  have hbranch : ¬ (1 - dot3 (normalize_l2norm3 na) (normalize_l2norm3 (scale3 (-k) na))
      < 1e-10) := by
    rw [hd]
    norm_num
  refine ⟨hbranch, ?_, ?_, rfl⟩
  · simp only [rotate_normal_to_normal_axis, if_neg hbranch]
    rw [hd, Real.arccos_neg_one]
  · rw [normalize_l2norm3_scale3_neg k hk]
    simp only [cross3, scale3, zero3]
    ext <;> simp only [] <;> ring

/-- C16 at na = (0,0,1) and k = 2, so nb = (0,0,-2): the hypotheses hold, the angle is pi and
the cross product is the zero vector. -/
theorem rotate_normal_to_normal_antiparallel_witness :
    ((⟨0, 0, 1⟩ : Vec3) ≠ zero3 ∧ (0 : ℝ) < 2)
      ∧ (rotate_normal_to_normal_axis ⟨0, 0, 1⟩ (scale3 (-2) ⟨0, 0, 1⟩)).x3 = Real.pi
      ∧ cross3 (normalize_l2norm3 ⟨0, 0, 1⟩) (normalize_l2norm3 (scale3 (-2) ⟨0, 0, 1⟩))
          = zero3 := by
  have h1 : (⟨0, 0, 1⟩ : Vec3) ≠ zero3 := by
    intro h
    have h2 := congrArg Vec3.x2 h
    norm_num [zero3] at h2
  have hmain := rotate_normal_to_normal_antiparallel ⟨0, 0, 1⟩ 2 h1 (by norm_num)
  exact ⟨⟨h1, by norm_num⟩, hmain.2.1, hmain.2.2.1⟩

/-- Swapping the factors of the cross product changes the sign of its normalisation. -/
theorem normalize_l2norm3_cross3_swap (a b : Vec3) :
    normalize_l2norm3 (cross3 b a) = scale3 (-1) (normalize_l2norm3 (cross3 a b)) := by
  have hs : sq (cross3 b a).x0 + sq (cross3 b a).x1 + sq (cross3 b a).x2
      = sq (cross3 a b).x0 + sq (cross3 a b).x1 + sq (cross3 a b).x2 := by
    simp only [cross3, sq]
    ring
  simp only [normalize_l2norm3, hs]
  simp only [cross3, scale3]
  ext <;> simp only [] <;> ring

/-- Reversing the axis transposes the matrix of `axisangle_to_rotation`. -/
theorem axisangle_to_rotation_neg_axis (a : Vec3) (t : ℝ) :
    axisangle_to_rotation
        ⟨(scale3 (-1) a).x0, (scale3 (-1) a).x1, (scale3 (-1) a).x2, t⟩
      = transpose (axisangle_to_rotation ⟨a.x0, a.x1, a.x2, t⟩) := by
  simp only [axisangle_to_rotation, axisangle_to_quaternion, quaternion_to_rotation, transpose,
    scale3, sq]
  ext <;> simp only [] <;> ring

/-- C20: for all non-zero na, nb, `rotate_normal_to_normal(nb, na)` is the transpose of
`rotate_normal_to_normal(na, nb)`. -/
theorem rotate_normal_to_normal_swap (na nb : Vec3) (_hna : na ≠ zero3) (_hnb : nb ≠ zero3) :
    rotate_normal_to_normal nb na = transpose (rotate_normal_to_normal na nb) := by
  have hd : dot3 (normalize_l2norm3 nb) (normalize_l2norm3 na)
      = dot3 (normalize_l2norm3 na) (normalize_l2norm3 nb) := dot3_comm _ _
  by_cases hbranch : 1 - dot3 (normalize_l2norm3 na) (normalize_l2norm3 nb) < 1e-10
  · have hbranch2 : 1 - dot3 (normalize_l2norm3 nb) (normalize_l2norm3 na) < 1e-10 := by
      rw [hd]
      exact hbranch
    simp only [rotate_normal_to_normal, if_pos hbranch, if_pos hbranch2,
      axisangle_to_rotation_zero_angle]
    simp only [transpose, identity3]
  · have hbranch2 : ¬ (1 - dot3 (normalize_l2norm3 nb) (normalize_l2norm3 na) < 1e-10) := by
      rw [hd]
      exact hbranch
    simp only [rotate_normal_to_normal, if_neg hbranch, if_neg hbranch2]
    rw [normalize_l2norm3_cross3_swap, hd]
    exact axisangle_to_rotation_neg_axis _ _

/-- C20 at na = (0,0,1), nb = (1,0,0): both are non-zero and swapping them transposes the
matrix. -/
theorem rotate_normal_to_normal_swap_witness :
    ((⟨0, 0, 1⟩ : Vec3) ≠ zero3 ∧ (⟨1, 0, 0⟩ : Vec3) ≠ zero3)
      ∧ rotate_normal_to_normal ⟨1, 0, 0⟩ ⟨0, 0, 1⟩
          = transpose (rotate_normal_to_normal ⟨0, 0, 1⟩ ⟨1, 0, 0⟩) := by
  have h1 : (⟨0, 0, 1⟩ : Vec3) ≠ zero3 := by
    intro h
    have h2 := congrArg Vec3.x2 h
    norm_num [zero3] at h2
  have h2 : (⟨1, 0, 0⟩ : Vec3) ≠ zero3 := by
    intro h
    have h0 := congrArg Vec3.x0 h
    norm_num [zero3] at h0
  exact ⟨⟨h1, h2⟩, rotate_normal_to_normal_swap _ _ h1 h2⟩

/-! ## Local coordinate frame: the cross products that are normalised -/

theorem dot3_self_of_l2norm3 (z : Vec3) (hz : l2norm3 z = 1) : dot3 z z = 1 := by
  simp only [l2norm3] at hz
  have h2 := Real.mul_self_sqrt (sumsq_nonneg z)
  rw [hz] at h2
  simp only [sq] at h2
  simp only [dot3]
  linarith

/-- C17: for every unit vector z, the first cross product that
`construct_local_coordinate_frame` normalises (z×X when |z·X| <= 0.8, Y×z when |z·X| > 0.8) has
Euclidean norm at least 0.6, hence is not the zero vector, and the second cross product has
norm exactly 1. -/
theorem construct_local_coordinate_frame_cross_norms (z : Vec3) (hz : l2norm3 z = 1) :
    (|dot3 z canonical_xd| ≤ 0.8 →
        construct_local_coordinate_frame z
            = (cross3_normalized (cross3_normalized z canonical_xd) z,
                cross3_normalized z canonical_xd)
          ∧ 0.6 ≤ l2norm3 (cross3 z canonical_xd)
          ∧ cross3 z canonical_xd ≠ zero3
          ∧ l2norm3 (cross3 (cross3_normalized z canonical_xd) z) = 1)
      ∧ (|dot3 z canonical_xd| > 0.8 →
        construct_local_coordinate_frame z
            = (cross3_normalized canonical_yd z,
                cross3_normalized z (cross3_normalized canonical_yd z))
          ∧ 0.6 ≤ l2norm3 (cross3 canonical_yd z)
          ∧ cross3 canonical_yd z ≠ zero3
          ∧ l2norm3 (cross3 z (cross3_normalized canonical_yd z)) = 1) := by
  have hzz := dot3_self_of_l2norm3 z hz
  constructor
  · intro hle
    have hb : ¬ |dot3 z canonical_xd| > 0.8 := not_lt.mpr hle
    have hne := cross3_canonical_xd_ne_zero z hzz hb
    have hv : dot3 (cross3_normalized z canonical_xd) (cross3_normalized z canonical_xd) = 1 :=
      normalize_l2norm3_unit _ hne
    have hvz : dot3 (cross3_normalized z canonical_xd) z = 0 := dot3_cross3_normalized_left _ _
    refine ⟨?_, ?_, hne, ?_⟩
    · simp only [construct_local_coordinate_frame, if_neg hb]
    · rw [l2norm3, Real.le_sqrt (by norm_num) (sumsq_nonneg _)]
      obtain ⟨z0, z1, z2⟩ := z
      simp only [dot3, canonical_xd, cross3, sq] at hzz hle ⊢
      norm_num at hle ⊢
      have habs := abs_le.mp hle
      nlinarith [habs.1, habs.2]
    · exact l2norm3_eq_one_of_dot3 _ (cross3_normalized_of_orthonormal _ z hv hzz hvz).2
  · intro hb
    have hne := cross3_canonical_yd_ne_zero z hb
    have hu : dot3 (cross3_normalized canonical_yd z) (cross3_normalized canonical_yd z) = 1 :=
      normalize_l2norm3_unit _ hne
    have huz : dot3 (cross3_normalized canonical_yd z) z = 0 :=
      dot3_cross3_normalized_right _ _
    have hzu : dot3 z (cross3_normalized canonical_yd z) = 0 := by
      rw [dot3_comm]
      exact huz
    refine ⟨?_, ?_, hne, ?_⟩
    · simp only [construct_local_coordinate_frame, if_pos hb]
    · rw [l2norm3, Real.le_sqrt (by norm_num) (sumsq_nonneg _)]
      obtain ⟨z0, z1, z2⟩ := z
      simp only [dot3, canonical_xd, canonical_yd, cross3, sq] at hzz hb ⊢
      norm_num at hb ⊢
      rcases lt_abs.mp hb with h | h
      · nlinarith [mul_self_nonneg z2]
      · nlinarith [mul_self_nonneg z2]
    · exact l2norm3_eq_one_of_dot3 _ (cross3_normalized_of_orthonormal z _ hzz hu hzu).2

/-- C17 at z = (0,0,1) (reference +X) and z = (1,0,0) (reference +Y): both are unit vectors,
each takes its branch, and the first cross product has norm at least 0.6. -/
theorem construct_local_coordinate_frame_cross_norms_witness :
    (l2norm3 ⟨0, 0, 1⟩ = 1 ∧ |dot3 ⟨0, 0, 1⟩ canonical_xd| ≤ 0.8
        ∧ 0.6 ≤ l2norm3 (cross3 ⟨0, 0, 1⟩ canonical_xd))
      ∧ (l2norm3 ⟨1, 0, 0⟩ = 1 ∧ |dot3 ⟨1, 0, 0⟩ canonical_xd| > 0.8
        ∧ 0.6 ≤ l2norm3 (cross3 canonical_yd ⟨1, 0, 0⟩)) := by
  have hz : l2norm3 ⟨0, 0, 1⟩ = 1 := l2norm3_eq_one_of_dot3 _ (by norm_num [dot3])
  have hx : l2norm3 ⟨1, 0, 0⟩ = 1 := l2norm3_eq_one_of_dot3 _ (by norm_num [dot3])
  have hbz : |dot3 ⟨0, 0, 1⟩ canonical_xd| ≤ 0.8 := by
    norm_num [dot3, canonical_xd]
  have hbx : |dot3 ⟨1, 0, 0⟩ canonical_xd| > 0.8 := by
    norm_num [dot3, canonical_xd]
  exact ⟨⟨hz, hbz, ((construct_local_coordinate_frame_cross_norms ⟨0, 0, 1⟩ hz).1 hbz).2.1⟩,
    ⟨hx, hbx, ((construct_local_coordinate_frame_cross_norms ⟨1, 0, 0⟩ hx).2 hbx).2.1⟩⟩

/-! ## Sine and cosine of `atan2` -/

theorem degrees_mul_radians (x : ℝ) : x * DEGREES * RADIANS = x := by
  have hpi : Real.pi ≠ 0 := Real.pi_pos.ne.symm
  simp only [RADIANS, DEGREES]
  field_simp

theorem sin_atan2 (y x : ℝ) : Real.sin (atan2 y x) = y / Real.sqrt (x * x + y * y) := by
  rw [atan2, Complex.sin_arg, Complex.abs_apply, Complex.normSq_apply]

theorem cos_atan2 (y x : ℝ) (h : 0 < x * x + y * y) :
    Real.cos (atan2 y x) = x / Real.sqrt (x * x + y * y) := by
  have hne : (⟨x, y⟩ : ℂ) ≠ 0 := by
    intro h0
    have hre := congrArg Complex.re h0
    have him := congrArg Complex.im h0
    simp only [Complex.zero_re, Complex.zero_im] at hre him
    rw [hre, him] at h
    norm_num at h
  rw [atan2, Complex.cos_arg hne, Complex.abs_apply, Complex.normSq_apply]

/-! ## Spherical kernel: the reverse round trip -/

/-- C18: for every non-zero vector n (poles included),
`azel_to_cartesian(cartesian_to_azel(n))` equals n/|n|. -/
theorem reverse_spherical_round_trip (n : Vec3) (hn : n ≠ zero3) :
    azel_to_cartesian (cartesian_to_azel n).1 (cartesian_to_azel n).2
      = normalize_l2norm3 n := by
  have hs := sumsq_pos_of_ne_zero n hn
  have hr := norm_pos_of_ne_zero n hn
  have hrr := Real.mul_self_sqrt hs.le
  obtain ⟨n0, n1, n2⟩ := n
  simp only [sq] at hs hr hrr
  generalize hrdef : Real.sqrt (n0 * n0 + n1 * n1 + n2 * n2) = r at hr hrr
  have hr0 : r ≠ 0 := hr.ne.symm
  -- the ratio n[2]/r lies in [-1, 1], so the clamp leaves it unchanged
  have habs : |n2| ≤ r := by
    rw [← hrdef]
    apply Real.abs_le_sqrt
    nlinarith [mul_self_nonneg n0, mul_self_nonneg n1]
  have hq1 : n2 / r ≤ 1 := (div_le_one hr).mpr (abs_le.mp habs).2
  have hq2 : -1 ≤ n2 / r := by
    rw [le_div_iff₀ hr]
    linarith [(abs_le.mp habs).1]
  have hc1 : ¬ (n2 / r > 1.0) := by
    norm_num
    exact hq1
  have hc2 : ¬ (n2 / r < -1.0) := by
    norm_num
    exact hq2
  -- the sine of the elevation is rho/r with rho the norm of (n[0], n[1])
  have hrho : 1 - (n2 / r) ^ 2 = (n0 * n0 + n1 * n1) / (r * r) := by
    field_simp
    linear_combination (r ^ 2) * hrr
  have hsin : Real.sin (Real.arccos (n2 / r)) = Real.sqrt (n0 * n0 + n1 * n1) / r := by
    rw [Real.sin_arccos, hrho, Real.sqrt_div' _ (mul_self_nonneg r), Real.sqrt_mul_self hr.le]
  simp only [cartesian_to_azel, azel_to_cartesian, normalize_l2norm3, sq, hrdef, if_neg hc1,
    if_neg hc2, degrees_mul_radians, Real.cos_arccos hq2 hq1, hsin, sin_atan2]
  by_cases hpole : n0 * n0 + n1 * n1 = 0
  · have e0 : n0 = 0 := by nlinarith [mul_self_nonneg n0, mul_self_nonneg n1]
    have e1 : n1 = 0 := by nlinarith [mul_self_nonneg n0, mul_self_nonneg n1]
    subst e0 e1
    ext <;> simp
  · have hpos : 0 < n0 * n0 + n1 * n1 :=
      lt_of_le_of_ne (by nlinarith [mul_self_nonneg n0, mul_self_nonneg n1]) (Ne.symm hpole)
    have hrho0 : Real.sqrt (n0 * n0 + n1 * n1) ≠ 0 := (Real.sqrt_pos.mpr hpos).ne.symm
    rw [cos_atan2 n1 n0 hpos]
    ext
    · simp only []
      field_simp
      ring
    · simp only []
      field_simp
      ring
    · simp only []

/-- C18 at the pole n = (0, 0, 2): the vector is non-zero and the reverse round trip returns
(0, 0, 1). -/
theorem reverse_spherical_round_trip_witness :
    (⟨0, 0, 2⟩ : Vec3) ≠ zero3
      ∧ azel_to_cartesian (cartesian_to_azel ⟨0, 0, 2⟩).1 (cartesian_to_azel ⟨0, 0, 2⟩).2
          = ⟨0, 0, 1⟩ := by
  have hne : (⟨0, 0, 2⟩ : Vec3) ≠ zero3 := by
    intro h
    have h2 := congrArg Vec3.x2 h
    norm_num [zero3] at h2
  have h2 : normalize_l2norm3 ⟨0, 0, 2⟩ = ⟨0, 0, 1⟩ := by
    have hs : Real.sqrt 4 = 2 := by
      rw [show (4 : ℝ) = 2 * 2 by norm_num]
      exact Real.sqrt_mul_self (by norm_num)
    simp only [normalize_l2norm3, sq]
    norm_num [hs]
  have hmain := reverse_spherical_round_trip ⟨0, 0, 2⟩ hne
  rw [h2] at hmain
  exact ⟨hne, hmain⟩

/-! ## Euler kernel: the reverse round trip -/

theorem neg_degrees_mul_radians (x : ℝ) : x * -DEGREES * RADIANS = -x := by
  have hpi : Real.pi ≠ 0 := Real.pi_pos.ne.symm
  simp only [RADIANS, DEGREES]
  field_simp
  ring

/-- In a proper rotation every entry equals its own cofactor; listed here are the cofactor
equations of rows 0, 1, 2 that the Euler extraction relies on, and the unit norm of row 0. -/
theorem so3_cofactors (a b c d e f g h i : ℝ)
    (horth : mat_mat (transpose ⟨a, b, c, d, e, f, g, h, i⟩) ⟨a, b, c, d, e, f, g, h, i⟩
      = identity3)
    (hdet : det3 ⟨a, b, c, d, e, f, g, h, i⟩ = 1) :
    e * i - f * h = a ∧ f * g - d * i = b ∧ c * h - b * i = d ∧ a * i - c * g = e
      ∧ b * f - c * e = g ∧ c * d - a * f = h
      ∧ a * a + b * b + c * c = 1 ∧ c * c + f * f + i * i = 1 := by
  have o00 := congrArg Mat3.r0 horth
  have o01 := congrArg Mat3.r1 horth
  have o02 := congrArg Mat3.r2 horth
  have o11 := congrArg Mat3.r4 horth
  have o12 := congrArg Mat3.r5 horth
  have o22 := congrArg Mat3.r8 horth
  simp only [mat_mat, transpose, identity3] at o00 o01 o02 o11 o12 o22
  simp only [det3] at hdet
  have k00 : e * i - f * h = a := by
    linear_combination (-(e * i - f * h)) * o00 - (f * g - d * i) * o01
      - (d * h - e * g) * o02 + a * hdet
  have k01 : f * g - d * i = b := by
    linear_combination (-(e * i - f * h)) * o01 - (f * g - d * i) * o11
      - (d * h - e * g) * o12 + b * hdet
  have k02 : d * h - e * g = c := by
    linear_combination (-(e * i - f * h)) * o02 - (f * g - d * i) * o12
      - (d * h - e * g) * o22 + c * hdet
  have k10 : c * h - b * i = d := by
    linear_combination (-(c * h - b * i)) * o00 - (a * i - c * g) * o01
      - (b * g - a * h) * o02 + d * hdet
  have k11 : a * i - c * g = e := by
    linear_combination (-(c * h - b * i)) * o01 - (a * i - c * g) * o11
      - (b * g - a * h) * o12 + e * hdet
  have k20 : b * f - c * e = g := by
    linear_combination (-(b * f - c * e)) * o00 - (c * d - a * f) * o01
      - (a * e - b * d) * o02 + g * hdet
  have k21 : c * d - a * f = h := by
    linear_combination (-(b * f - c * e)) * o01 - (c * d - a * f) * o11
      - (a * e - b * d) * o12 + h * hdet
  refine ⟨k00, k01, k10, k11, k20, k21, ?_, o22⟩
  linear_combination (-a) * k00 - b * k01 - c * k02 + hdet

/-- C19: for every 3x3 matrix R in SO(3) with R(0,0)² + R(0,1)² > 0 (not in gimbal lock),
`euler_to_rotation(rotation_to_euler(R))` equals R. -/
theorem reverse_euler_round_trip (R : Mat3)
    (horth : mat_mat (transpose R) R = identity3) (hdet : det3 R = 1)
    (hgl : 0 < R.r0 ^ 2 + R.r1 ^ 2) :
    euler_to_rotation (rotation_to_euler R).1 (rotation_to_euler R).2.1
      (rotation_to_euler R).2.2 = R := by
  obtain ⟨a, b, c, d, e, f, g, h, i⟩ := R
  obtain ⟨k00, k01, k10, k11, k20, k21, hrow, hcol⟩ := so3_cofactors a b c d e f g h i horth hdet
  simp only [pow_two] at hgl
  -- c2 = sqrt( sq( R(0,0) ) + sq( R(0,1) ) ) is positive
  have hmm := Real.mul_self_sqrt hgl.le
  have hmpos := Real.sqrt_pos.mpr hgl
  generalize hmdef : Real.sqrt (a * a + b * b) = m at hmm hmpos
  have hm0 : m ≠ 0 := hmpos.ne.symm
  have hmsq : 0 < m * m := mul_pos hmpos hmpos
  -- theta = atan2( R(1,2), R(2,2) )
  have hfi : i * i + f * f = m * m := by linear_combination hcol - hrow - hmm
  have hTs : Real.sin (atan2 f i) = f / m := by
    rw [sin_atan2, hfi, Real.sqrt_mul_self hmpos.le]
  have hTc : Real.cos (atan2 f i) = i / m := by
    rw [cos_atan2 f i (by rw [hfi]; exact hmsq), hfi, Real.sqrt_mul_self hmpos.le]
  -- phi = atan2( -R(0,2), c2 )
  have hmc : m * m + -c * -c = 1 := by linear_combination hmm + hrow
  have hPs : Real.sin (atan2 (-c) m) = -c := by
    rw [sin_atan2, hmc, Real.sqrt_one, div_one]
  have hPc : Real.cos (atan2 (-c) m) = m := by
    rw [cos_atan2 (-c) m (by rw [hmc]; exact one_pos), hmc, Real.sqrt_one, div_one]
  -- psi = atan2( s1*R(2,0)-c1*R(1,0) , c1*R(1,1)-s1*R(2,1) )
  have hY : f / m * g - i / m * d = b / m := by
    field_simp
    linear_combination k01
  have hX : i / m * e - f / m * h = a / m := by
    field_simp
    linear_combination k00
  have hab : a / m * (a / m) + b / m * (b / m) = 1 := by
    field_simp
    linear_combination -hmm
  have hQs : Real.sin (atan2 (b / m) (a / m)) = b / m := by
    rw [sin_atan2, hab, Real.sqrt_one, div_one]
  have hQc : Real.cos (atan2 (b / m) (a / m)) = a / m := by
    rw [cos_atan2 (b / m) (a / m) (by rw [hab]; exact one_pos), hab, Real.sqrt_one, div_one]
  simp only [rotation_to_euler, euler_to_rotation_entries, neg_degrees_mul_radians, sq, hmdef,
    Real.sin_neg, Real.cos_neg, hTs, hTc, hPs, hPc, hY, hX, hQs, hQc]
  ext
  · simp only []
    field_simp
  · simp only []
    field_simp
  · simp only []
    ring
  · simp only []
    field_simp
    linear_combination (m ^ 2) * (k10 + c * k21 - d * hmm - d * hrow)
  · simp only []
    field_simp
    linear_combination k11 - c * k20 - e * hmm - e * hrow
  · simp only []
    field_simp
  · simp only []
    field_simp
    linear_combination (-c) * k11 + k20 - g * hmm - g * hrow
  · simp only []
    field_simp
    linear_combination (m ^ 2) * (c * k10 + k21 - h * hmm - h * hrow)
  · simp only []
    field_simp

/-- C19 at the quarter turn about Z, rows (0,-1,0), (1,0,0), (0,0,1): it is a proper rotation
outside gimbal lock, and extracting its Euler angles and rebuilding returns it. -/
theorem reverse_euler_round_trip_witness :
    (mat_mat (transpose ⟨0, -1, 0, 1, 0, 0, 0, 0, 1⟩) ⟨0, -1, 0, 1, 0, 0, 0, 0, 1⟩ = identity3
        ∧ det3 ⟨0, -1, 0, 1, 0, 0, 0, 0, 1⟩ = 1
        ∧ 0 < (⟨0, -1, 0, 1, 0, 0, 0, 0, 1⟩ : Mat3).r0 ^ 2
            + (⟨0, -1, 0, 1, 0, 0, 0, 0, 1⟩ : Mat3).r1 ^ 2)
      ∧ euler_to_rotation (rotation_to_euler ⟨0, -1, 0, 1, 0, 0, 0, 0, 1⟩).1
          (rotation_to_euler ⟨0, -1, 0, 1, 0, 0, 0, 0, 1⟩).2.1
          (rotation_to_euler ⟨0, -1, 0, 1, 0, 0, 0, 0, 1⟩).2.2
        = ⟨0, -1, 0, 1, 0, 0, 0, 0, 1⟩ := by
  have h1 : mat_mat (transpose ⟨0, -1, 0, 1, 0, 0, 0, 0, 1⟩) ⟨0, -1, 0, 1, 0, 0, 0, 0, 1⟩
      = identity3 := by
    simp only [mat_mat, transpose, identity3]
    ext <;> norm_num
  have h2 : det3 ⟨0, -1, 0, 1, 0, 0, 0, 0, 1⟩ = 1 := by
    norm_num [det3]
  have h3 : 0 < (⟨0, -1, 0, 1, 0, 0, 0, 0, 1⟩ : Mat3).r0 ^ 2
      + (⟨0, -1, 0, 1, 0, 0, 0, 0, 1⟩ : Mat3).r1 ^ 2 := by
    norm_num
  exact ⟨⟨h1, h2, h3⟩, reverse_euler_round_trip _ h1 h2 h3⟩

end

end kortex
